import Mathlib

/-!
# Timing wheel (`zgpwr/timewheel`): a shallow embedding of `timewheel.go`

The Go package keeps a circular array of slots; each slot is a binary heap
(`container/heap`) of tasks compared by `TaskHeap.Less`, i.e. by
`circle` with the *largest* value at the root.  A single loop (`run`) serves
ticks, add requests and delete requests.

Modelling decisions, all visible in the definitions below:

* `time.Duration` is an `Int` number of nanoseconds and Go `int` is `Int`:
  the wrap-around of `int64` is not modelled.
* the two `float64` computations of `getTaskPos` are modelled by exact integer
  arithmetic (`intSeconds`, `ceilQuot`), rounding included.
* a handler `func(interface{})` and its data are identifiers (`Nat`);
  `go task.handler(task.data)` is recorded by returning the dispatched task.
* the map `taskMap` is an association list with Go map semantics
  (`mapGet`, `mapSet`, `mapDelete`).
* a Go run-time panic (index out of range, integer division by zero, a slice
  that cannot be made) and the implementation-dependent conversion of
  `±Inf`/`NaN` to `int` are `none`; the model says nothing about what a wheel
  with an interval below one second does after its first add.
* `go tw.handleTasks(taskHeap)` is executed to completion inside the tick
  that starts it (the sequential reading of `tickHandle`).
* the loops of `container/heap` (`up`, `down`) and of `handleTasks` recurse on
  a fuel argument; the callers pass a fuel that the loop never exhausts
  (`heap.up_fuel`, `heap.downLoop_fuel`, `popLoop_fuel`).
-/

namespace Timewheel

/-! ## Durations -/

/-- A `time.Duration`: a signed count of nanoseconds. -/
abbrev Duration := Int

/-- The constant `time.Second`. -/
def Second : Duration := 1000000000

/-- The smallest power of two above `sec`, searched from `p` upwards in at most
`fuel` doublings (64 doublings from 1 cover every second count of an `int64`
duration). -/
def binadeTop : Nat → Nat → Nat → Nat
  | 0, p, _ => p
  | fuel + 1, p, sec => if sec < p then p else binadeTop fuel (2 * p) sec

/-- The value `int(d.Seconds())` of a duration of `d ≥ 0` nanoseconds.
`Seconds` returns `float64(sec) + float64(nsec)/1e9` with `sec = d / Second`
and `nsec = d % Second`; both conversions are exact and, with no fraction, so
is the sum.  Otherwise the rounded sum lies between `sec` and `sec + 1`, and
the conversion to `int` gives `sec` unless the sum is rounded to `sec + 1`.
With `P` the smallest power of two above `sec`, the doubles just below
`sec + 1` are `P / 2^52` apart, so the sum is rounded to `sec + 1` (a tie goes
to the even `sec + 1`) exactly when the rounded fraction is at least
`1 - P / 2^54`, that is when `nsec/1e9 > 1 - P / 2^54 - 1 / 2^54`: the integer
inequality below.  It first holds at `2^24` seconds: `16777216.999999999s`
gives `16777217`. -/
def natSeconds (d : Nat) : Nat :=
  let sec := d / 1000000000
  let nsec := d % 1000000000
  if sec ≠ 0 ∧ nsec ≠ 0 ∧
      (1000000000 - nsec) * 2 ^ 54 < 1000000000 * (binadeTop 64 1 sec + 1) then sec + 1
  else sec

/-- The value `int(d.Seconds())`: `natSeconds` of the magnitude, with the sign of
`d` (Go divides, takes the remainder and converts to `int` toward zero). -/
def intSeconds (d : Duration) : Int :=
  if d < 0 then -((natSeconds d.natAbs : Nat) : Int) else ((natSeconds d.natAbs : Nat) : Int)

/-- The value `int(math.Ceil(float64(a) / float64(b)))` for `b ≠ 0`: the ceiling
of the quotient.  The second counts of two `Duration`s are below `2^34`, both
conversions are exact and the rounded quotient has the ceiling of the exact one
(`ceilQuot_eq_ceil`). -/
def ceilQuot (a b : Int) : Int := -(Int.fdiv (-a) b)

/-! ## Tasks and the slot heap -/

/-- A `Handler` is identified by a number. -/
abbrev Handler := Nat

/-- The struct `Task`. -/
structure Task where
  id : String
  handler : Handler
  data : Nat
  circle : Int
  delay : Duration
  deriving DecidableEq, Repr

/-- The type `TaskHeap []Task`. -/
abbrev TaskHeap := List Task

namespace TaskHeap

/-- Method `Len`. -/
def Len (h : TaskHeap) : Nat := h.length

/-- Method `Less(i, j)`: `h[i].circle > h[j].circle`. -/
def Less (h : TaskHeap) (i j : Nat) : Bool :=
  match h[i]?, h[j]? with
  | some a, some b => decide (a.circle > b.circle)
  | _, _ => false

/-- Method `Swap(i, j)`: `h[i], h[j] = h[j], h[i]`. -/
def Swap (h : TaskHeap) (i j : Nat) : TaskHeap :=
  match h[i]?, h[j]? with
  | some a, some b => (h.set i b).set j a
  | _, _ => h

/-- Method `Push(v)`: append. -/
def Push (h : TaskHeap) (v : Task) : TaskHeap := h ++ [v]

/-- Method `Pop()`: remove and return the last element (`none`: index out of range). -/
def Pop (h : TaskHeap) : Option (Task × TaskHeap) :=
  match h.getLast? with
  | none => none
  | some item => some (item, h.dropLast)

end TaskHeap

/-! ## `container/heap` -/

namespace heap

/-- The loop of `heap.up(h, j)`. -/
def up : Nat → TaskHeap → Nat → TaskHeap
  | 0, h, _ => h
  | fuel + 1, h, j =>
    let i := (j - 1) / 2
    if i = j ∨ TaskHeap.Less h j i = false then h
    else up fuel (TaskHeap.Swap h i j) i

/-- The loop of `heap.down(h, i0, n)`: the heap and the final index `i`. -/
def downLoop : Nat → TaskHeap → Nat → Nat → TaskHeap × Nat
  | 0, h, i, _ => (h, i)
  | fuel + 1, h, i, n =>
    let j1 := 2 * i + 1
    if n ≤ j1 then (h, i)
    else
      let j := if j1 + 1 < n ∧ TaskHeap.Less h (j1 + 1) j1 = true then j1 + 1 else j1
      if TaskHeap.Less h j i = false then (h, i)
      else downLoop fuel (TaskHeap.Swap h i j) j n

/-- Function `heap.down(h, i0, n)`: the heap and `i > i0`. -/
def down (h : TaskHeap) (i0 n : Nat) : TaskHeap × Bool :=
  let r := downLoop n h i0 n
  (r.1, decide (i0 < r.2))

/-- Function `heap.Init(h)`: `down(h, i, n)` for `i = n/2 - 1` down to `0`. -/
def Init (h : TaskHeap) : TaskHeap :=
  ((List.range (h.length / 2)).reverse).foldl (fun acc i => (down acc i h.length).1) h

/-- Function `heap.Push(h, x)`. -/
def Push (h : TaskHeap) (x : Task) : TaskHeap :=
  let h1 := TaskHeap.Push h x
  up h1.length h1 (h1.length - 1)

/-- Function `heap.Pop(h)` (`none`: the panic on an empty heap). -/
def Pop (h : TaskHeap) : Option (Task × TaskHeap) :=
  if h.length = 0 then none
  else
    let n := h.length - 1
    let h1 := TaskHeap.Swap h 0 n
    TaskHeap.Pop (down h1 0 n).1

/-- Function `heap.Remove(h, i)` (`none`: the panic on an index out of range). -/
def Remove (h : TaskHeap) (i : Nat) : Option (Task × TaskHeap) :=
  if h.length ≤ i then none
  else
    let n := h.length - 1
    if n ≠ i then
      let h1 := TaskHeap.Swap h i n
      let r := down h1 i n
      let h2 := if r.2 = false then up (i + 1) r.1 i else r.1
      TaskHeap.Pop h2
    else TaskHeap.Pop h

end heap

/-! ## The wheel -/

/-- Go map read `m[k]`. -/
def mapGet : List (String × Int) → String → Option Int
  | [], _ => none
  | (k1, v) :: rest, k => if k1 = k then some v else mapGet rest k

/-- Go `delete(m, k)`. -/
def mapDelete (m : List (String × Int)) (k : String) : List (String × Int) :=
  m.filter (fun e => decide (e.1 ≠ k))

/-- Go map write `m[k] = v`. -/
def mapSet (m : List (String × Int)) (k : String) (v : Int) : List (String × Int) :=
  (k, v) :: mapDelete m k

/-- The struct `TimeWheel` (the ticker and the three channels carry no data). -/
structure TimeWheel where
  interval : Duration
  slotNum : Int
  slots : List TaskHeap
  curPos : Int
  taskMap : List (String × Int)
  isRun : Bool
  deriving DecidableEq, Repr

/-- The read `tw.slots[i]` (`none`: index out of range). -/
def slotAt (slots : List TaskHeap) (i : Int) : Option TaskHeap :=
  if i < 0 then none else slots[i.toNat]?

/-- The heap behind the pointer `tw.slots[i]` replaced by `h`. -/
def setSlot (slots : List TaskHeap) (i : Int) (h : TaskHeap) : List TaskHeap :=
  if i < 0 then slots else slots.set i.toNat h

/-- Method `initSlots`: every slot is a fresh heap, initialised by `heap.Init`. -/
def initSlots (slotNum : Nat) : List TaskHeap :=
  List.replicate slotNum (heap.Init [])

/-- Function `NewTimeWheel`.  The call `make([]*TaskHeap, slotNum)` panics on a
negative length and on a length above what the run time can allocate
(`makeslice: len out of range`, or the allocation of the slots fails); `maxLen`
is that largest length on the machine at hand, and `none` is the failure. -/
def NewTimeWheel (maxLen : Int) (interval : Duration) (slotNum : Int) : Option TimeWheel :=
  if slotNum < 0 ∨ maxLen < slotNum then none
  else some
    { interval := interval, slotNum := slotNum, curPos := 0,
      slots := initSlots slotNum.toNat, taskMap := [], isRun := false }

/-- Method `AddTask`: the returned pair and the task sent on `addTaskChan`, if any.
`uuid` is the string that `uuid.New().String()` yields. -/
def AddTask (tw : TimeWheel) (delay : Duration) (h : Handler) (data : Nat) (uuid : String) :
    (String × Bool) × Option Task :=
  if delay < tw.interval then (("", false), none)
  else ((uuid, true), some { id := uuid, delay := delay, handler := h, data := data, circle := 0 })

/-- Method `DelTask`: the id sent on `delTaskChan`, if any. -/
def DelTask (taskId : String) : Option String :=
  if taskId = "" then none else some taskId

/-- The loop `for len(*taskHeap) > 0` of `handleTasks`: the heap left and the
tasks dispatched so far, in order. -/
def popLoop : Nat → TaskHeap → List Task → TaskHeap × List Task
  | 0, h, fired => (h, fired)
  | fuel + 1, h, fired =>
    match heap.Pop h with
    | none => (h, fired)
    | some (task, h1) =>
      if task.circle = 0 then popLoop fuel h1 (fired ++ [task])
      else (heap.Push h1 task, fired)

/-- The statement `(*taskHeap)[i].circle--`. -/
def decCircle (t : Task) : Task := { t with circle := t.circle - 1 }

/-- Method `handleTasks`: the slot afterwards and the tasks whose handler was started. -/
def handleTasks (taskHeap : TaskHeap) : TaskHeap × List Task :=
  if taskHeap.length ≤ 0 then (taskHeap, [])
  else
    let r := popLoop taskHeap.length taskHeap []
    (r.1.map decCircle, r.2)

/-- Method `tickHandle` followed by the `handleTasks` it starts. -/
def tickHandle (tw : TimeWheel) : Option (TimeWheel × List Task) :=
  let curPos := if tw.curPos = tw.slotNum - 1 then 0 else tw.curPos + 1
  match slotAt tw.slots curPos with
  | none => none
  | some taskHeap =>
    let r := handleTasks taskHeap
    some ({ tw with curPos := curPos, slots := setSlot tw.slots curPos r.1 }, r.2)

/-- The local `delay` of `getTaskPos`: the number of ticks derived from the
delay of the task (`none`: float division by zero, whose conversion to `int` is
implementation-dependent). -/
def getTaskTicks (tw : TimeWheel) (task : Task) : Option Int :=
  let delaySec := intSeconds task.delay
  let intervalSec := intSeconds tw.interval
  if intervalSec = 0 then none else some (ceilQuot delaySec intervalSec)

/-- Method `getTaskPos`: `(circle, pos)` (`none` also for the division by `slotNum = 0`). -/
def getTaskPos (tw : TimeWheel) (task : Task) : Option (Int × Int) :=
  match getTaskTicks tw task with
  | none => none
  | some delay =>
    if tw.slotNum = 0 then none
    else some (Int.tdiv delay tw.slotNum, Int.tmod (tw.curPos + delay) tw.slotNum)

/-- Method `addTask`: the wheel afterwards and the returned pair. -/
def addTask (tw : TimeWheel) (task : Task) (uuid : String) :
    Option (TimeWheel × (Bool × String)) :=
  if task.delay ≤ 0 then some (tw, (false, ""))
  else
    match getTaskPos tw task with
    | none => none
    | some (circ, pos) =>
      let id := if task.id = "" then uuid else task.id
      let task1 : Task := { task with id := id, circle := circ }
      match slotAt tw.slots pos with
      | none => none
      | some taskHeap =>
        some ({ tw with slots := setSlot tw.slots pos (heap.Push taskHeap task1),
                        taskMap := mapSet tw.taskMap id pos }, (true, id))

/-- The scan `for i := 0; i < n; i++` of `delTask`: the first index whose task
has the id. -/
def findTask : TaskHeap → String → Option Nat
  | [], _ => none
  | t :: rest, taskId =>
    if t.id = taskId then some 0 else (findTask rest taskId).map (· + 1)

/-- Method `delTask`. -/
def delTask (tw : TimeWheel) (taskId : String) : Option TimeWheel :=
  match mapGet tw.taskMap taskId with
  | none => some tw
  | some pos =>
    match slotAt tw.slots pos with
    | none => none
    | some taskHeap =>
      if taskHeap.length ≤ 0 then some tw
      else
        match findTask taskHeap taskId with
        | none => some tw
        | some idx =>
          match heap.Remove taskHeap idx with
          | none => none
          | some r =>
            some { tw with slots := setSlot tw.slots pos r.2,
                           taskMap := mapDelete tw.taskMap taskId }

/-! ## The owner loop, one request at a time -/

/-- What `run` can receive: a tick, a task on `addTaskChan` (with the uuid that
`addTask` would draw), an id on `delTaskChan`. -/
inductive Request where
  | tick : Request
  | add : Task → String → Request
  | del : String → Request
  deriving DecidableEq, Repr

/-- One iteration of the `select` in `run`: the wheel afterwards and the tasks
dispatched (`none`: the loop panicked). -/
def step (tw : TimeWheel) : Request → Option (TimeWheel × List Task)
  | Request.tick => tickHandle tw
  | Request.add task uuid => (addTask tw task uuid).map (fun r => (r.1, []))
  | Request.del taskId => (delTask tw taskId).map (fun w => (w, []))

/-- All tasks dispatched while `run` serves the requests in order, up to the
end of the list or to a panic of the loop. -/
def runLog : List Request → TimeWheel → List Task
  | [], _ => []
  | r :: rest, tw =>
    match step tw r with
    | none => []
    | some (tw1, fired) => fired ++ runLog rest tw1

/-- The wheel after `n` ticks. -/
def tickN : Nat → TimeWheel → Option TimeWheel
  | 0, tw => some tw
  | n + 1, tw =>
    match tickHandle tw with
    | none => none
    | some r => tickN n r.1

/-- The tasks dispatched on tick number `k + 1` counted from `tw`. -/
def firedOnTick (tw : TimeWheel) (k : Nat) : Option (List Task) :=
  match tickN k tw with
  | none => none
  | some tw1 => (tickHandle tw1).map (fun r => r.2)

/-! ## Auxiliary definitions -/

/-- The child that `down` compares with `i`: the right one when it exists and
is `Less` than the left one. -/
def heap.child (h : TaskHeap) (i n : Nat) : Nat :=
  if 2 * i + 1 + 1 < n ∧ TaskHeap.Less h (2 * i + 1 + 1) (2 * i + 1) = true then 2 * i + 1 + 1
  else 2 * i + 1

/-! ## State predicates -/

/-- The shape `NewTimeWheel` gives a wheel with `slotNum ≥ 1` and every step
keeps: `slotNum` slots and a pointer inside them. -/
def WellFormed (tw : TimeWheel) : Prop :=
  1 ≤ tw.slotNum ∧ (tw.slots.length : Int) = tw.slotNum ∧ 0 ≤ tw.curPos ∧ tw.curPos < tw.slotNum

instance (tw : TimeWheel) : Decidable (WellFormed tw) := by
  unfold WellFormed
  infer_instance

/-- The ids of the tasks stored in the wheel are pairwise distinct. -/
def DistinctIds (tw : TimeWheel) : Prop :=
  ((tw.slots.flatten).map (fun t => t.id)).Nodup

instance (tw : TimeWheel) : Decidable (DistinctIds tw) := by
  unfold DistinctIds
  infer_instance

/-- No slot stores a task with the id `taskId`. -/
def NoTaskWithId (tw : TimeWheel) (taskId : String) : Prop :=
  ∀ h ∈ tw.slots, ∀ u ∈ h, u.id ≠ taskId

instance (tw : TimeWheel) (taskId : String) : Decidable (NoTaskWithId tw taskId) := by
  unfold NoTaskWithId
  infer_instance

/-- Every entry of `taskMap` names an existing slot. -/
def MapInRange (tw : TimeWheel) : Prop :=
  ∀ e ∈ tw.taskMap, 0 ≤ e.2 ∧ e.2 < (tw.slots.length : Int)

instance (tw : TimeWheel) : Decidable (MapInRange tw) := by
  unfold MapInRange
  infer_instance

/-- The id under which `addTask` stores the task of an add request. -/
def storedId (task : Task) (uuid : String) : String :=
  if task.id = "" then uuid else task.id

/-- The number of ticks after which the pointer is next on slot `p`. -/
def gap (tw : TimeWheel) (p : Int) : Int :=
  if tw.curPos < p then p - tw.curPos else p + tw.slotNum - tw.curPos

/-- Slot `p` holds exactly the task `t` and every other slot is empty. -/
def OnlyTask (tw : TimeWheel) (p : Int) (t : Task) : Prop :=
  slotAt tw.slots p = some [t] ∧
    ∀ q, q ≠ p → 0 ≤ q → q < tw.slotNum → slotAt tw.slots q = some []

/-- Every slot is empty. -/
def NoTasks (tw : TimeWheel) : Prop :=
  ∀ q, 0 ≤ q → q < tw.slotNum → slotAt tw.slots q = some []

/-- The slot `tickHandle` moves the pointer to. -/
def nextPos (tw : TimeWheel) : Int :=
  if tw.curPos = tw.slotNum - 1 then 0 else tw.curPos + 1

/-- The id an add request brings into the wheel, if the request is one. -/
def addedId : Request → Option String
  | Request.add task uuid => some (storedId task uuid)
  | _ => none

/-! ## Concrete wheels

The wheel of `TestTimeWheel` (`NewTimeWheel(time.Second, 60)`) with its three
tasks, and small wheels on which the statements are evaluated. -/

/-- The longest slice of slots `make([]*TaskHeap, n)` accepts on a 64-bit
Linux, `maxAlloc / 8 = 2^45`: a longer one is refused with
`makeslice: len out of range` whatever the memory of the machine. -/
def maxSlots64 : Int := 35184372088832

/-- The wheel `NewTimeWheel(time.Second, 60)` returns. -/
def testWheel : TimeWheel :=
  { interval := Second, slotNum := 60, slots := List.replicate 60 [], curPos := 0,
    taskMap := [], isRun := false }

/-- The task `AddTask(time.Second*5, ...)` sends. -/
def testTask1 : Task :=
  { id := "task-1", handler := 1, data := 1, circle := 0, delay := 5 * Second }

/-- The task `AddTask(time.Minute, ...)` sends. -/
def testTask2 : Task :=
  { id := "task-2", handler := 1, data := 2, circle := 0, delay := 60 * Second }

/-- The task `AddTask(time.Second*30, ...)` sends. -/
def testTask3 : Task :=
  { id := "task-3", handler := 1, data := 3, circle := 0, delay := 30 * Second }

/-- The empty test wheel after `addTask` of `testTask2`. -/
def testWheelMinute : TimeWheel :=
  { testWheel with
      slots := [{ testTask2 with circle := 1 }] :: List.replicate 59 [],
      taskMap := [("task-2", 0)] }

/-- The test wheel after the three adds at position `0` and twenty ticks:
`task-1` was dispatched on tick 5 and left its `taskMap` entry behind. -/
def testWheelAt20 : TimeWheel :=
  { testWheel with
      curPos := 20,
      slots := [{ testTask2 with circle := 1 }] :: List.replicate 29 [] ++
        [testTask3] :: List.replicate 29 [],
      taskMap := [("task-3", 30), ("task-2", 0), ("task-1", 5)] }

/-- A task that is due (`circle = 0`). -/
def dueTask : Task :=
  { id := "due", handler := 1, data := 10, circle := 0, delay := Second }

/-- A task that has one more turn to wait (`circle = 1`). -/
def waitingTask : Task :=
  { id := "waiting", handler := 2, data := 20, circle := 1, delay := 3 * Second }

/-- An empty wheel of two slots and a one-second interval. -/
def smallWheel : TimeWheel :=
  { interval := Second, slotNum := 2, slots := [[], []], curPos := 0, taskMap := [],
    isRun := true }

/-- A wheel of three slots: slot 1 holds the waiting and the due task, and
`taskMap` still has the entry of a task `"gone"` that was dispatched from
slot 2. -/
def wheel3 : TimeWheel :=
  { interval := Second, slotNum := 3, slots := [[], [waitingTask, dueTask], []], curPos := 0,
    taskMap := [("due", 1), ("waiting", 1), ("gone", 2)], isRun := true }

/-- A wheel of three slots whose only task waits two turns in slot 1. -/
def wheel3Single : TimeWheel :=
  { interval := Second, slotNum := 3, slots := [[], [{ waitingTask with circle := 2 }], []],
    curPos := 0, taskMap := [("waiting", 1)], isRun := true }

/-- A wheel of two slots with an interval of one and a half seconds. -/
def oddWheel : TimeWheel :=
  { interval := 1500000000, slotNum := 2, slots := [[], []], curPos := 0, taskMap := [],
    isRun := true }

/-- A task whose delay is two intervals of `oddWheel`. -/
def oddTask : Task :=
  { id := "odd", handler := 1, data := 1, circle := 0, delay := 3000000000 }

/-! ## The loop over a list of requests, and its lifecycle -/

/-- The wheel after the loop has served the requests in order (`none`: the loop
panicked on the way). -/
def runState : List Request → TimeWheel → Option TimeWheel
  | [], tw => some tw
  | r :: rest, tw =>
    match step tw r with
    | none => none
    | some x => runState rest x.1

/-- The number of ticks among the requests. -/
def tickCount : List Request → Nat
  | [] => 0
  | Request.tick :: rest => tickCount rest + 1
  | Request.add _ _ :: rest => tickCount rest
  | Request.del _ :: rest => tickCount rest

/-- What the `select` of `run` can receive: one of the three requests, or a
value on `stopChan`. -/
inductive Event where
  | request : Request → Event
  | stop : Event
  deriving DecidableEq, Repr

/-- The goroutine that executes `run`: the wheel it works on and whether it has
called `tw.ticker.Stop()`.  The `for` of `run` has no exit (the `break` of the
stop case leaves the `select`), so the goroutine is in the loop as long as it
exists and the statement `tw.isRun = false` after the loop is never reached. -/
structure Loop where
  tw : TimeWheel
  tickerStopped : Bool
  deriving DecidableEq, Repr

/-- What a call of `Start` does. -/
inductive StartResult where
  | noop : StartResult
  | tickerPanic : StartResult
  | started : Loop → StartResult
  deriving DecidableEq, Repr

/-- Method `Start`: nothing when `isRun` is set; otherwise a ticker is made
(`time.NewTicker` panics on a non-positive interval) and `run` is started,
whose first statement sets `isRun`. -/
def Start (tw : TimeWheel) : StartResult :=
  if tw.isRun then StartResult.noop
  else if tw.interval ≤ 0 then StartResult.tickerPanic
  else StartResult.started { tw := { tw with isRun := true }, tickerStopped := false }

/-- Method `Stop`: whether a value is sent on `stopChan` (not when `isRun` is
unset). -/
def Stop (tw : TimeWheel) : Bool := tw.isRun

/-- One iteration of `for { select { ... } }` in `run`: the goroutine afterwards
and the tasks dispatched (`none`: a panic).  The stop case calls
`tw.ticker.Stop()` and `break`s out of the `select`; the loop goes on. -/
def runIter (l : Loop) : Event → Option (Loop × List Task)
  | Event.request r => (step l.tw r).map (fun x => ({ l with tw := x.1 }, x.2))
  | Event.stop => some ({ l with tickerStopped := true }, [])

/-- The goroutine after the events have been served in order. -/
def run : List Event → Loop → Option Loop
  | [], l => some l
  | e :: rest, l =>
    match runIter l e with
    | none => none
    | some x => run rest x.1

/-! ## The heap property -/

/-- The `circle` of the task at index `i` (`0` outside the slot). -/
def circleAt (h : TaskHeap) (i : Nat) : Int :=
  match h[i]? with
  | some t => t.circle
  | none => 0

/-- Among the first `n` elements no element has a larger `circle` than its
parent `(j - 1) / 2`: the heap property of `container/heap` under
`TaskHeap.Less`. -/
def IsHeapUpTo (h : TaskHeap) (n : Nat) : Prop :=
  ∀ j, j < n → 0 < j → circleAt h j ≤ circleAt h ((j - 1) / 2)

instance (h : TaskHeap) (n : Nat) : Decidable (IsHeapUpTo h n) := by
  unfold IsHeapUpTo
  infer_instance

/-- The slot is a heap. -/
def IsHeap (h : TaskHeap) : Prop := IsHeapUpTo h h.length

instance (h : TaskHeap) : Decidable (IsHeap h) := by
  unfold IsHeap
  infer_instance

/-- Every slot of the wheel is a heap. -/
def AllHeaps (tw : TimeWheel) : Prop := ∀ h ∈ tw.slots, IsHeap h

instance (tw : TimeWheel) : Decidable (AllHeaps tw) := by
  unfold AllHeaps
  infer_instance

/-- The number of tasks in the list that carry the id. -/
def idCount (l : List Task) (taskId : String) : Nat :=
  l.countP (fun t => decide (t.id = taskId))

/-- The number of tasks stored in the wheel that carry the id. -/
def storedCount (tw : TimeWheel) (taskId : String) : Nat :=
  idCount tw.slots.flatten taskId

/-- The number of add requests that bring the id. -/
def addedCount (reqs : List Request) (taskId : String) : Nat :=
  (reqs.filterMap addedId).count taskId


/-! ## Lemmas on `Swap` -/

theorem cons_set_perm (x : Task) : ∀ (xs : List Task) (j : Nat) (b : Task),
    xs[j]? = some b → (b :: xs.set j x).Perm (x :: xs)
  | [], j, b, h => by simp at h
  | y :: ys, 0, b, h => by
    simp at h
    subst h
    simpa using List.Perm.swap x y ys
  | y :: ys, j + 1, b, h => by
    simp at h
    have ih := cons_set_perm x ys j b h
    simp only [List.set_cons_succ]
    exact ((List.Perm.swap y b _).trans (ih.cons y)).trans (List.Perm.swap x y ys)

theorem set_set_perm : ∀ (l : List Task) (i j : Nat) (a b : Task),
    l[i]? = some a → l[j]? = some b → ((l.set i b).set j a).Perm l
  | [], i, j, a, b, hi, hj => by simp at hi
  | x :: xs, 0, 0, a, b, hi, hj => by
    simp at hi hj
    subst hi
    simp
  | x :: xs, 0, j + 1, a, b, hi, hj => by
    simp at hi hj
    subst hi
    simpa using cons_set_perm x xs j b hj
  | x :: xs, i + 1, 0, a, b, hi, hj => by
    simp at hi hj
    subst hj
    simpa using cons_set_perm x xs i a hi
  | x :: xs, i + 1, j + 1, a, b, hi, hj => by
    simp at hi hj
    simpa using (set_set_perm xs i j a b hi hj).cons x

theorem Swap_perm (h : TaskHeap) (i j : Nat) : (TaskHeap.Swap h i j).Perm h := by
  unfold TaskHeap.Swap
  cases hi : h[i]? with
  | none => simp
  | some a =>
    cases hj : h[j]? with
    | none => simp
    | some b => simpa using set_set_perm h i j a b hi hj

theorem Swap_length (h : TaskHeap) (i j : Nat) : (TaskHeap.Swap h i j).length = h.length :=
  (Swap_perm h i j).length_eq

/-- The method `Swap` leaves every index other than its two arguments alone. -/
theorem Swap_getElem?_ne (h : TaskHeap) (i j k : Nat) (hki : k ≠ i) (hkj : k ≠ j) :
    (TaskHeap.Swap h i j)[k]? = h[k]? := by
  unfold TaskHeap.Swap
  cases hi : h[i]? with
  | none => simp
  | some a =>
    cases hj : h[j]? with
    | none => simp
    | some b =>
      simp only [List.getElem?_set]
      rw [if_neg (Ne.symm hkj), if_neg (Ne.symm hki)]

/-- After `Swap(i, j)` the element at `j` is the one that was at `i`. -/
theorem Swap_getElem?_right (h : TaskHeap) (i j : Nat) (hi : i < h.length) (hj : j < h.length) :
    (TaskHeap.Swap h i j)[j]? = h[i]? := by
  unfold TaskHeap.Swap
  rw [List.getElem?_eq_getElem hi, List.getElem?_eq_getElem hj]
  simp [List.getElem?_set, hj]

/-! ## Lemmas on `heap.up` and `heap.down` -/

theorem heap.up_perm : ∀ (fuel : Nat) (h : TaskHeap) (j : Nat), (heap.up fuel h j).Perm h
  | 0, h, j => by simp [heap.up]
  | fuel + 1, h, j => by
    unfold heap.up
    simp only
    split
    · exact List.Perm.refl _
    · exact (heap.up_perm fuel _ _).trans (Swap_perm h _ _)

/-- The loop `up` started at `j` never touches an index above `j`. -/
theorem heap.up_getElem?_gt : ∀ (fuel : Nat) (h : TaskHeap) (j k : Nat), j < k →
    (heap.up fuel h j)[k]? = h[k]?
  | 0, h, j, k, _ => by simp [heap.up]
  | fuel + 1, h, j, k, hjk => by
    unfold heap.up
    simp only
    split
    · rfl
    · have hle : (j - 1) / 2 ≤ j := by omega
      rw [heap.up_getElem?_gt fuel _ _ k (by omega)]
      exact Swap_getElem?_ne h _ _ k (by omega) (by omega)

/-- Any fuel above `j` gives the same result: the loop of `up` ends by itself. -/
theorem heap.up_fuel : ∀ (f1 f2 : Nat) (h : TaskHeap) (j : Nat), j < f1 → j < f2 →
    heap.up f1 h j = heap.up f2 h j
  | 0, _, _, _, h1, _ => by omega
  | _ + 1, 0, _, _, _, h2 => by omega
  | f1 + 1, f2 + 1, h, j, h1, h2 => by
    unfold heap.up
    simp only
    split
    · rfl
    · rename_i hc
      have hne : (j - 1) / 2 ≠ j := fun e => hc (Or.inl e)
      exact heap.up_fuel f1 f2 _ _ (by omega) (by omega)

theorem heap.child_gt (h : TaskHeap) (i n : Nat) : i < heap.child h i n := by
  unfold heap.child
  split <;> omega

theorem heap.child_lt (h : TaskHeap) (i n : Nat) (hn : ¬ n ≤ 2 * i + 1) :
    heap.child h i n < n := by
  unfold heap.child
  split <;> omega

theorem heap.downLoop_succ (fuel : Nat) (h : TaskHeap) (i n : Nat) :
    heap.downLoop (fuel + 1) h i n =
      if n ≤ 2 * i + 1 then (h, i)
      else if TaskHeap.Less h (heap.child h i n) i = false then (h, i)
      else heap.downLoop fuel (TaskHeap.Swap h i (heap.child h i n)) (heap.child h i n) n := rfl

theorem heap.downLoop_perm : ∀ (fuel : Nat) (h : TaskHeap) (i n : Nat),
    (heap.downLoop fuel h i n).1.Perm h
  | 0, h, i, n => by simp [heap.downLoop]
  | fuel + 1, h, i, n => by
    rw [heap.downLoop_succ]
    by_cases h1 : n ≤ 2 * i + 1
    · rw [if_pos h1]
    · rw [if_neg h1]
      by_cases h2 : TaskHeap.Less h (heap.child h i n) i = false
      · rw [if_pos h2]
      · rw [if_neg h2]
        exact (heap.downLoop_perm fuel _ _ n).trans (Swap_perm h _ _)

/-- The loop `down(h, i, n)` never touches an index from `n` on. -/
theorem heap.downLoop_getElem?_ge : ∀ (fuel : Nat) (h : TaskHeap) (i n k : Nat), n ≤ k →
    (heap.downLoop fuel h i n).1[k]? = h[k]?
  | 0, h, i, n, k, _ => by simp [heap.downLoop]
  | fuel + 1, h, i, n, k, hk => by
    rw [heap.downLoop_succ]
    by_cases h1 : n ≤ 2 * i + 1
    · rw [if_pos h1]
    · rw [if_neg h1]
      by_cases h2 : TaskHeap.Less h (heap.child h i n) i = false
      · rw [if_pos h2]
      · rw [if_neg h2, heap.downLoop_getElem?_ge fuel _ _ n k hk]
        have := heap.child_lt h i n h1
        have := heap.child_gt h i n
        exact Swap_getElem?_ne h _ _ k (by omega) (by omega)

/-- Any fuel of at least `n - i` gives the same result: the loop of `down` ends by itself. -/
theorem heap.downLoop_fuel : ∀ (f1 f2 : Nat) (h : TaskHeap) (i n : Nat),
    n - i ≤ f1 → n - i ≤ f2 → heap.downLoop f1 h i n = heap.downLoop f2 h i n
  | 0, 0, _, _, _, _, _ => rfl
  | 0, f2 + 1, h, i, n, h1, _ => by
    rw [heap.downLoop_succ, if_pos (by omega)]
    rfl
  | f1 + 1, 0, h, i, n, _, h2 => by
    rw [heap.downLoop_succ, if_pos (by omega)]
    rfl
  | f1 + 1, f2 + 1, h, i, n, h1, h2 => by
    rw [heap.downLoop_succ, heap.downLoop_succ]
    by_cases h3 : n ≤ 2 * i + 1
    · rw [if_pos h3, if_pos h3]
    · rw [if_neg h3, if_neg h3]
      by_cases h4 : TaskHeap.Less h (heap.child h i n) i = false
      · rw [if_pos h4, if_pos h4]
      · rw [if_neg h4, if_neg h4]
        have := heap.child_gt h i n
        exact heap.downLoop_fuel f1 f2 _ _ n (by omega) (by omega)

theorem heap.down_perm (h : TaskHeap) (i n : Nat) : (heap.down h i n).1.Perm h :=
  heap.downLoop_perm n h i n

theorem heap.down_getElem?_ge (h : TaskHeap) (i n k : Nat) (hk : n ≤ k) :
    (heap.down h i n).1[k]? = h[k]? :=
  heap.downLoop_getElem?_ge n h i n k hk

/-! ## Lemmas on `heap.Push`, `heap.Pop`, `heap.Remove` -/

theorem TaskHeap.Pop_eq_some {h h1 : TaskHeap} {x : Task} (e : TaskHeap.Pop h = some (x, h1)) :
    h = h1 ++ [x] := by
  unfold TaskHeap.Pop at e
  cases hl : h.getLast? with
  | none => simp [hl] at e
  | some item =>
    simp only [hl, Option.some.injEq, Prod.mk.injEq] at e
    obtain ⟨rfl, rfl⟩ := e
    exact (List.dropLast_append_getLast? item hl).symm

theorem TaskHeap.Pop_of_getElem? {h : TaskHeap} {x : Task} (hx : h[h.length - 1]? = some x) :
    TaskHeap.Pop h = some (x, h.dropLast) := by
  unfold TaskHeap.Pop
  rw [List.getLast?_eq_getElem?, hx]

theorem heap.Push_perm (h : TaskHeap) (x : Task) : (heap.Push h x).Perm (x :: h) := by
  unfold heap.Push TaskHeap.Push
  exact (heap.up_perm _ _ _).trans (List.perm_append_singleton x h)

theorem heap.Pop_perm {h h1 : TaskHeap} {x : Task} (e : heap.Pop h = some (x, h1)) :
    (x :: h1).Perm h := by
  unfold heap.Pop at e
  split at e
  · simp at e
  · have e1 := TaskHeap.Pop_eq_some e
    have p1 := (heap.down_perm (TaskHeap.Swap h 0 (h.length - 1)) 0 (h.length - 1)).trans
      (Swap_perm h 0 (h.length - 1))
    rw [e1] at p1
    exact (List.perm_append_singleton x h1).symm.trans p1

theorem TaskHeap.Pop_of_ne_nil (g : TaskHeap) (hne : g ≠ []) : ∃ r, TaskHeap.Pop g = some r := by
  unfold TaskHeap.Pop
  cases hg : g.getLast? with
  | none => exact absurd (List.getLast?_eq_none_iff.mp hg) hne
  | some item => exact ⟨_, rfl⟩

theorem heap.Pop_isSome (h : TaskHeap) (hne : h ≠ []) : ∃ r, heap.Pop h = some r := by
  unfold heap.Pop
  have hl : h.length ≠ 0 := by simpa using hne
  rw [if_neg hl]
  have p1 := ((heap.down_perm (TaskHeap.Swap h 0 (h.length - 1)) 0 (h.length - 1)).trans
      (Swap_perm h 0 (h.length - 1))).length_eq
  apply TaskHeap.Pop_of_ne_nil
  intro e
  rw [e] at p1
  simp at p1
  omega

theorem heap.Pop_nil : heap.Pop [] = none := rfl

/-- The call `heap.Remove(h, i)` returns the element stored at index `i` and leaves the
other elements. -/
theorem heap.Remove_spec (h : TaskHeap) (i : Nat) (hi : i < h.length) :
    ∃ x h1, heap.Remove h i = some (x, h1) ∧ h[i]? = some x ∧ (x :: h1).Perm h := by
  have hx : h[i]? = some h[i] := List.getElem?_eq_getElem hi
  unfold heap.Remove
  rw [if_neg (by omega)]
  by_cases hn : h.length - 1 ≠ i
  · rw [if_pos hn]
    simp only
    generalize hh2 : (if (heap.down (TaskHeap.Swap h i (h.length - 1)) i (h.length - 1)).2 = false
      then heap.up (i + 1) (heap.down (TaskHeap.Swap h i (h.length - 1)) i (h.length - 1)).1 i
      else (heap.down (TaskHeap.Swap h i (h.length - 1)) i (h.length - 1)).1) = h2
    have hlast : h2[h.length - 1]? = h[i]? := by
      rw [← hh2]
      split
      · rw [heap.up_getElem?_gt _ _ _ _ (by omega), heap.down_getElem?_ge _ _ _ _ (le_refl _)]
        exact Swap_getElem?_right h i (h.length - 1) hi (by omega)
      · rw [heap.down_getElem?_ge _ _ _ _ (le_refl _)]
        exact Swap_getElem?_right h i (h.length - 1) hi (by omega)
    have hperm : h2.Perm h := by
      rw [← hh2]
      split
      · exact ((heap.up_perm _ _ _).trans (heap.down_perm _ _ _)).trans (Swap_perm h _ _)
      · exact (heap.down_perm _ _ _).trans (Swap_perm h _ _)
    have hlen : h2.length = h.length := hperm.length_eq
    have hpop : TaskHeap.Pop h2 = some (h[i], h2.dropLast) :=
      TaskHeap.Pop_of_getElem? (by rw [hlen, hlast, hx])
    refine ⟨h[i], h2.dropLast, hpop, hx, ?_⟩
    have e1 := TaskHeap.Pop_eq_some hpop
    have p2 : (h2.dropLast ++ [h[i]]).Perm h := e1 ▸ hperm
    exact (List.perm_append_singleton _ _).symm.trans p2
  · rw [if_neg hn]
    have hn1 : h.length - 1 = i := by omega
    have hpop : TaskHeap.Pop h = some (h[i], h.dropLast) :=
      TaskHeap.Pop_of_getElem? (by rw [hn1, hx])
    refine ⟨h[i], h.dropLast, hpop, hx, ?_⟩
    have e1 := TaskHeap.Pop_eq_some hpop
    have p2 : (h.dropLast ++ [h[i]]).Perm h := by rw [← e1]
    exact (List.perm_append_singleton _ _).symm.trans p2

/-! ## Lemmas on `findTask` -/

theorem findTask_none : ∀ (h : TaskHeap) (taskId : String),
    findTask h taskId = none ↔ ∀ t ∈ h, t.id ≠ taskId
  | [], taskId => by simp [findTask]
  | t :: rest, taskId => by
    unfold findTask
    by_cases e : t.id = taskId
    · simp [e]
    · simp [e, findTask_none rest taskId]

theorem findTask_some : ∀ (h : TaskHeap) (taskId : String) (idx : Nat),
    findTask h taskId = some idx → ∃ t, h[idx]? = some t ∧ t.id = taskId
  | [], taskId, idx, e => by simp [findTask] at e
  | t :: rest, taskId, idx, e => by
    unfold findTask at e
    by_cases c : t.id = taskId
    · rw [if_pos c] at e
      cases e
      exact ⟨t, by simp, c⟩
    · rw [if_neg c] at e
      cases hf : findTask rest taskId with
      | none => simp [hf] at e
      | some k =>
        simp [hf] at e
        subst e
        obtain ⟨u, hu, hid⟩ := findTask_some rest taskId k hf
        exact ⟨u, by simpa using hu, hid⟩

/-! ## Lemmas on `handleTasks` -/

theorem popLoop_perm : ∀ (fuel : Nat) (h : TaskHeap) (fired : List Task),
    ((popLoop fuel h fired).2 ++ (popLoop fuel h fired).1).Perm (fired ++ h)
  | 0, h, fired => by simp [popLoop]
  | fuel + 1, h, fired => by
    unfold popLoop
    cases hp : heap.Pop h with
    | none => simp
    | some r =>
      obtain ⟨task, h1⟩ := r
      have p1 := heap.Pop_perm hp
      simp only
      split
      · refine (popLoop_perm fuel h1 (fired ++ [task])).trans ?_
        rw [List.append_assoc]
        exact List.Perm.append_left fired (by simpa using p1)
      · exact List.Perm.append_left fired ((heap.Push_perm h1 task).trans p1)

/-- The loop dispatches only tasks whose `circle` is `0`. -/
theorem popLoop_fired : ∀ (fuel : Nat) (h : TaskHeap) (fired : List Task),
    (∀ t ∈ fired, t.circle = 0) → ∀ t ∈ (popLoop fuel h fired).2, t.circle = 0
  | 0, h, fired, hf => by simpa [popLoop] using hf
  | fuel + 1, h, fired, hf => by
    unfold popLoop
    cases hp : heap.Pop h with
    | none => simpa using hf
    | some r =>
      obtain ⟨task, h1⟩ := r
      simp only
      split
      · rename_i hc
        apply popLoop_fired fuel h1 (fired ++ [task])
        intro t ht
        rcases List.mem_append.mp ht with ht | ht
        · exact hf t ht
        · simp at ht
          rw [ht]
          exact hc
      · simpa using hf

/-- Any fuel of at least the length of the slot gives the same result. -/
theorem popLoop_fuel : ∀ (f1 f2 : Nat) (h : TaskHeap) (fired : List Task),
    h.length ≤ f1 → h.length ≤ f2 → popLoop f1 h fired = popLoop f2 h fired
  | 0, 0, _, _, _, _ => rfl
  | 0, f2 + 1, h, fired, h1, _ => by
    have : h = [] := List.length_eq_zero.mp (by omega)
    subst this
    simp [popLoop, heap.Pop_nil]
  | f1 + 1, 0, h, fired, _, h2 => by
    have : h = [] := List.length_eq_zero.mp (by omega)
    subst this
    simp [popLoop, heap.Pop_nil]
  | f1 + 1, f2 + 1, h, fired, h1, h2 => by
    unfold popLoop
    cases hp : heap.Pop h with
    | none => rfl
    | some r =>
      obtain ⟨task, g⟩ := r
      have hl := (heap.Pop_perm hp).length_eq
      simp only [List.length_cons] at hl
      simp only
      split
      · exact popLoop_fuel f1 f2 g _ (by omega) (by omega)
      · rfl

/-- What `handleTasks` does to a slot: the tasks it dispatches and the tasks it
keeps are together the tasks of the slot, and each kept task has its `circle`
decremented. -/
theorem handleTasks_spec (h : TaskHeap) :
    ∃ rest, (handleTasks h).1 = rest.map decCircle ∧ ((handleTasks h).2 ++ rest).Perm h := by
  unfold handleTasks
  split
  · rename_i hl
    have : h = [] := List.length_eq_zero.mp (by omega)
    subst this
    exact ⟨[], rfl, List.Perm.refl _⟩
  · exact ⟨(popLoop h.length h []).1, rfl, by simpa using popLoop_perm h.length h []⟩

theorem handleTasks_fired_mem (h : TaskHeap) : ∀ t ∈ (handleTasks h).2, t ∈ h := by
  obtain ⟨rest, _, hp⟩ := handleTasks_spec h
  intro t ht
  exact hp.subset (List.mem_append_left _ ht)

theorem handleTasks_fired_circle (h : TaskHeap) : ∀ t ∈ (handleTasks h).2, t.circle = 0 := by
  unfold handleTasks
  split
  · simp
  · exact popLoop_fired h.length h [] (by simp)

theorem decCircle_id (t : Task) : (decCircle t).id = t.id := rfl

/-- Every task left in the slot by `handleTasks` carries the id of a task that
was in the slot. -/
theorem handleTasks_kept_id (h : TaskHeap) :
    ∀ t ∈ (handleTasks h).1, ∃ u ∈ h, u.id = t.id := by
  obtain ⟨rest, he, hp⟩ := handleTasks_spec h
  intro t ht
  rw [he, List.mem_map] at ht
  obtain ⟨u, hu, rfl⟩ := ht
  exact ⟨u, hp.subset (List.mem_append_right _ hu), rfl⟩

theorem handleTasks_nil : handleTasks [] = ([], []) := rfl

/-- A slot that holds one task: the task is dispatched when its `circle` is
`0`, otherwise it stays with `circle - 1`. -/
theorem handleTasks_single (t : Task) :
    handleTasks [t] = if t.circle = 0 then ([], [t]) else ([decCircle t], []) := by
  have hpop : heap.Pop [t] = some (t, []) := by
    simp [heap.Pop, TaskHeap.Swap, heap.down, heap.downLoop, TaskHeap.Pop]
  have hpush : heap.Push [] t = [t] := by
    simp [heap.Push, TaskHeap.Push, heap.up]
  unfold handleTasks
  simp only [List.length_singleton, popLoop, hpop]
  by_cases hc : t.circle = 0
  · simp [hc]
  · simp [hc, hpush]

/-! ## Lemmas on slots and on `taskMap` -/

theorem slotAt_mem {slots : List TaskHeap} {i : Int} {h : TaskHeap}
    (e : slotAt slots i = some h) : h ∈ slots := by
  unfold slotAt at e
  split at e
  · simp at e
  · exact (List.getElem?_eq_some_iff.mp e).2 ▸ List.getElem_mem _

theorem slotAt_range {slots : List TaskHeap} {i : Int} {h : TaskHeap}
    (e : slotAt slots i = some h) : 0 ≤ i ∧ i < slots.length := by
  unfold slotAt at e
  split at e
  · simp at e
  · have := (List.getElem?_eq_some_iff.mp e).1
    omega

theorem slotAt_isSome (slots : List TaskHeap) (i : Int) (h0 : 0 ≤ i) (h1 : i < slots.length) :
    ∃ h, slotAt slots i = some h := by
  unfold slotAt
  rw [if_neg (by omega)]
  exact ⟨slots.get ⟨i.toNat, by omega⟩, List.getElem?_eq_getElem (by omega)⟩

theorem setSlot_length (slots : List TaskHeap) (i : Int) (h : TaskHeap) :
    (setSlot slots i h).length = slots.length := by
  unfold setSlot
  split <;> simp

theorem slotAt_setSlot_same (slots : List TaskHeap) (i : Int) (h : TaskHeap)
    (h0 : 0 ≤ i) (h1 : i < slots.length) : slotAt (setSlot slots i h) i = some h := by
  unfold slotAt setSlot
  rw [if_neg (by omega), if_neg (by omega)]
  simp [List.getElem?_set]
  omega

theorem slotAt_setSlot_ne (slots : List TaskHeap) (i j : Int) (h : TaskHeap) (hij : i ≠ j) :
    slotAt (setSlot slots i h) j = slotAt slots j := by
  unfold slotAt setSlot
  by_cases hj : j < 0
  · simp [hj]
  · by_cases hi : i < 0
    · simp [hi]
    · rw [if_neg hj, if_neg hi, if_neg hj, List.getElem?_set, if_neg (by omega)]

theorem mem_setSlot {slots : List TaskHeap} {i : Int} {h g : TaskHeap}
    (hg : g ∈ setSlot slots i h) : g ∈ slots ∨ g = h := by
  unfold setSlot at hg
  split at hg
  · exact Or.inl hg
  · exact List.mem_or_eq_of_mem_set hg

theorem mapGet_cons (k1 : String) (v : Int) (rest : List (String × Int)) (k : String) :
    mapGet ((k1, v) :: rest) k = if k1 = k then some v else mapGet rest k := rfl

theorem mapDelete_cons_eq (v : Int) (rest : List (String × Int)) (k : String) :
    mapDelete ((k, v) :: rest) k = mapDelete rest k := by
  simp [mapDelete, List.filter]

theorem mapDelete_cons_ne (k1 : String) (v : Int) (rest : List (String × Int)) (k : String)
    (hne : k1 ≠ k) : mapDelete ((k1, v) :: rest) k = (k1, v) :: mapDelete rest k := by
  simp [mapDelete, List.filter, hne]

theorem mapGet_mapDelete_same : ∀ (m : List (String × Int)) (k : String),
    mapGet (mapDelete m k) k = none
  | [], k => rfl
  | (k1, v) :: rest, k => by
    by_cases e : k1 = k
    · subst e
      rw [mapDelete_cons_eq]
      exact mapGet_mapDelete_same rest k1
    · rw [mapDelete_cons_ne _ _ _ _ e, mapGet_cons, if_neg e]
      exact mapGet_mapDelete_same rest k

theorem mapGet_mapDelete_ne : ∀ (m : List (String × Int)) (k k2 : String), k2 ≠ k →
    mapGet (mapDelete m k) k2 = mapGet m k2
  | [], k, k2, _ => rfl
  | (k1, v) :: rest, k, k2, hne => by
    by_cases e : k1 = k
    · subst e
      rw [mapDelete_cons_eq, mapGet_cons, if_neg (Ne.symm hne)]
      exact mapGet_mapDelete_ne rest k1 k2 hne
    · rw [mapDelete_cons_ne _ _ _ _ e, mapGet_cons, mapGet_cons,
        mapGet_mapDelete_ne rest k k2 hne]

theorem mapGet_mapSet_same (m : List (String × Int)) (k : String) (v : Int) :
    mapGet (mapSet m k v) k = some v := by
  simp [mapSet, mapGet]

theorem mapGet_mapSet_ne (m : List (String × Int)) (k k2 : String) (v : Int) (hne : k2 ≠ k) :
    mapGet (mapSet m k v) k2 = mapGet m k2 := by
  unfold mapSet
  rw [mapGet_cons, if_neg (Ne.symm hne)]
  exact mapGet_mapDelete_ne m k k2 hne

/-! ## Distinct ids -/

theorem distinct_within {tw : TimeWheel} (hd : DistinctIds tw) {h : TaskHeap}
    (hh : h ∈ tw.slots) : (h.map (fun t => t.id)).Nodup :=
  List.Nodup.sublist ((List.sublist_flatten_of_mem hh).map _) hd

theorem distinct_across_aux : ∀ (L : List TaskHeap) (p q : Nat) (h g : TaskHeap) (t u : Task),
    ((L.flatten).map (fun t => t.id)).Nodup → p ≠ q → L[p]? = some h → L[q]? = some g →
    t ∈ h → u ∈ g → t.id ≠ u.id
  | [], p, q, h, g, t, u, _, _, hp, _, _, _ => by simp at hp
  | l :: L, 0, 0, h, g, t, u, _, hne, _, _, _, _ => absurd rfl hne
  | l :: L, 0, q + 1, h, g, t, u, hd, _, hp, hq, ht, hu => by
    simp only [List.flatten_cons, List.map_append] at hd
    simp only [List.getElem?_cons_zero, Option.some.injEq] at hp
    simp only [List.getElem?_cons_succ] at hq
    subst hp
    have hdis := (List.nodup_append.mp hd).2.2
    intro e
    have hg : g ∈ L := (List.getElem?_eq_some_iff.mp hq).2 ▸ List.getElem_mem _
    exact hdis (List.mem_map_of_mem _ ht)
      (e ▸ List.mem_map_of_mem _ (List.mem_flatten.mpr ⟨g, hg, hu⟩))
  | l :: L, p + 1, 0, h, g, t, u, hd, _, hp, hq, ht, hu => by
    simp only [List.flatten_cons, List.map_append] at hd
    simp only [List.getElem?_cons_zero, Option.some.injEq] at hq
    simp only [List.getElem?_cons_succ] at hp
    subst hq
    have hdis := (List.nodup_append.mp hd).2.2
    intro e
    have hh : h ∈ L := (List.getElem?_eq_some_iff.mp hp).2 ▸ List.getElem_mem _
    exact hdis (List.mem_map_of_mem _ hu)
      (e ▸ List.mem_map_of_mem _ (List.mem_flatten.mpr ⟨h, hh, ht⟩))
  | l :: L, p + 1, q + 1, h, g, t, u, hd, hne, hp, hq, ht, hu => by
    simp only [List.flatten_cons, List.map_append] at hd
    simp only [List.getElem?_cons_succ] at hp hq
    exact distinct_across_aux L p q h g t u (List.nodup_append.mp hd).2.1 (by omega) hp hq ht hu

theorem distinct_across {tw : TimeWheel} (hd : DistinctIds tw) {p q : Int} {h g : TaskHeap}
    {t u : Task} (hne : p ≠ q) (hp : slotAt tw.slots p = some h) (hq : slotAt tw.slots q = some g)
    (ht : t ∈ h) (hu : u ∈ g) : t.id ≠ u.id := by
  have rp := slotAt_range hp
  have rq := slotAt_range hq
  unfold slotAt at hp hq
  rw [if_neg (by omega)] at hp hq
  exact distinct_across_aux tw.slots p.toNat q.toNat h g t u hd (by omega) hp hq ht hu

theorem mapGet_mem : ∀ (m : List (String × Int)) (k : String) (v : Int),
    mapGet m k = some v → (k, v) ∈ m
  | [], k, v, e => by simp [mapGet] at e
  | (k1, v1) :: rest, k, v, e => by
    rw [mapGet_cons] at e
    by_cases c : k1 = k
    · rw [if_pos c] at e
      cases e
      subst c
      exact List.mem_cons_self _ _
    · rw [if_neg c] at e
      exact List.mem_cons_of_mem _ (mapGet_mem rest k v e)

/-! ## Deleting -/

theorem mem_slotAt {slots : List TaskHeap} {g : TaskHeap} (hg : g ∈ slots) :
    ∃ q : Int, slotAt slots q = some g := by
  obtain ⟨n, hn⟩ := List.mem_iff_getElem?.mp hg
  refine ⟨(n : Int), ?_⟩
  unfold slotAt
  rw [if_neg (by omega)]
  simpa using hn

/-- The call `delTask` on a task that is stored in the slot its `taskMap` entry names:
what is removed and what the wheel is afterwards. -/
theorem delTask_pending (tw : TimeWheel) (taskId : String) (p : Int) (h : TaskHeap) (t : Task)
    (hd : DistinctIds tw) (hmap : mapGet tw.taskMap taskId = some p)
    (hslot : slotAt tw.slots p = some h) (ht : t ∈ h) (hid : t.id = taskId) :
    ∃ h1, delTask tw taskId =
        some { tw with slots := setSlot tw.slots p h1,
                       taskMap := mapDelete tw.taskMap taskId } ∧
      (t :: h1).Perm h ∧ ∀ u ∈ h1, u.id ≠ taskId := by
  have hlen : ¬ h.length ≤ 0 := by
    have := List.length_pos_of_mem ht
    omega
  cases hf : findTask h taskId with
  | none => exact absurd hid ((findTask_none h taskId).mp hf t ht)
  | some idx =>
    obtain ⟨x, hx, hxid⟩ := findTask_some h taskId idx hf
    have hidx : idx < h.length := (List.getElem?_eq_some_iff.mp hx).1
    obtain ⟨y, h1, hrem, hy, hperm⟩ := heap.Remove_spec h idx hidx
    have hxy : y = x := by
      rw [hx] at hy
      exact (Option.some.inj hy).symm
    subst hxy
    have hnd := distinct_within hd (slotAt_mem hslot)
    have hxmem : y ∈ h := (List.getElem?_eq_some_iff.mp hx).2 ▸ List.getElem_mem _
    have hyt : y = t := List.inj_on_of_nodup_map hnd hxmem ht (hxid.trans hid.symm)
    subst hyt
    refine ⟨h1, ?_, hperm, ?_⟩
    · unfold delTask
      simp only [hmap, hslot, if_neg hlen, hf, hrem]
    · have hnd2 : ((y :: h1).map (fun t => t.id)).Nodup := (hperm.map _).nodup_iff.mpr hnd
      simp only [List.map_cons, List.nodup_cons, List.mem_map, not_exists, not_and] at hnd2
      intro u hu e
      exact hnd2.1 u hu (e.trans hid.symm)

/-- After that `delTask` no slot stores a task with the id. -/
theorem delTask_pending_absent (tw : TimeWheel) (taskId : String) (p : Int) (h h1 : TaskHeap)
    (t : Task) (hd : DistinctIds tw) (hslot : slotAt tw.slots p = some h) (ht : t ∈ h)
    (hid : t.id = taskId) (h1id : ∀ u ∈ h1, u.id ≠ taskId) :
    NoTaskWithId { tw with slots := setSlot tw.slots p h1,
                           taskMap := mapDelete tw.taskMap taskId } taskId := by
  intro g hg u hu
  obtain ⟨q, hq⟩ := mem_slotAt hg
  simp only at hq
  have rp := slotAt_range hslot
  by_cases e : p = q
  · subst e
    rw [slotAt_setSlot_same _ _ _ rp.1 rp.2] at hq
    cases hq
    exact h1id u hu
  · rw [slotAt_setSlot_ne _ _ _ _ e] at hq
    have := distinct_across hd e hslot hq ht hu
    rw [hid] at this
    exact Ne.symm this

/-- The call `delTask` with an id that no stored task carries changes nothing. -/
theorem delTask_absent (tw : TimeWheel) (taskId : String) (hr : MapInRange tw)
    (habs : NoTaskWithId tw taskId) : delTask tw taskId = some tw := by
  unfold delTask
  cases hm : mapGet tw.taskMap taskId with
  | none => rfl
  | some pos =>
    have hin := hr _ (mapGet_mem _ _ _ hm)
    obtain ⟨h, hs⟩ := slotAt_isSome tw.slots pos hin.1 hin.2
    simp only [hs]
    split
    · rfl
    · rw [(findTask_none h taskId).mpr (habs h (slotAt_mem hs))]

/-- C4: with a positive interval, `AddTask` with a delay below the interval (so
also every delay `≤ 0`) returns the empty id and `false` and sends no task to
the owner loop, which therefore gets nothing to change the wheel with. -/
theorem C4_AddTask_rejects_short_delay (tw : TimeWheel) (delay : Duration) (h : Handler)
    (data : Nat) (uuid : String) (hi : 0 < tw.interval) (hdel : delay < tw.interval ∨ delay ≤ 0) :
    AddTask tw delay h data uuid = (("", false), none) := by
  have hlt : delay < tw.interval := by
    rcases hdel with hlt | hle
    · exact hlt
    · exact lt_of_le_of_lt hle hi
  unfold AddTask
  rw [if_pos hlt]

theorem C4_AddTask_rejects_short_delay_witness :
    (0 : Int) < Second ∧
      AddTask { interval := Second, slotNum := 60, slots := List.replicate 60 [], curPos := 0,
                taskMap := [], isRun := true } 999999999 7 8 "u" = (("", false), none) :=
  ⟨by decide, C4_AddTask_rejects_short_delay _ 999999999 7 8 "u" (by decide)
    (Or.inl (by decide))⟩

/-- C6: for a wheel whose stored ids are pairwise distinct and a task `t` with
id `taskId` stored in the slot `p` that `taskMap` records for it, `delTask`
removes exactly `t` from slot `p` (the slot keeps the other tasks, as a
multiset, with their circles) and deletes `taskMap[taskId]`; the other slots,
the other `taskMap` entries, `curPos`, `slotNum` and `interval` are unchanged. -/
theorem C6_delTask_removes_exactly_the_task (tw : TimeWheel) (taskId : String) (p : Int)
    (h : TaskHeap) (t : Task) (hd : DistinctIds tw)
    (hmap : mapGet tw.taskMap taskId = some p) (hslot : slotAt tw.slots p = some h)
    (ht : t ∈ h) (hid : t.id = taskId) :
    ∃ tw1 h1, delTask tw taskId = some tw1 ∧
      slotAt tw1.slots p = some h1 ∧ (t :: h1).Perm h ∧ (∀ u ∈ h1, u.id ≠ taskId) ∧
      (∀ q, q ≠ p → slotAt tw1.slots q = slotAt tw.slots q) ∧
      tw1.slots.length = tw.slots.length ∧
      mapGet tw1.taskMap taskId = none ∧
      (∀ k, k ≠ taskId → mapGet tw1.taskMap k = mapGet tw.taskMap k) ∧
      tw1.curPos = tw.curPos ∧ tw1.slotNum = tw.slotNum ∧ tw1.interval = tw.interval := by
  obtain ⟨h1, hdel, hperm, hno⟩ := delTask_pending tw taskId p h t hd hmap hslot ht hid
  have rp := slotAt_range hslot
  refine ⟨_, h1, hdel, slotAt_setSlot_same _ _ _ rp.1 rp.2, hperm, hno, ?_, setSlot_length _ _ _,
    mapGet_mapDelete_same _ _, fun k hk => mapGet_mapDelete_ne _ _ _ hk, rfl, rfl, rfl⟩
  intro q hq
  exact slotAt_setSlot_ne _ _ _ _ (Ne.symm hq)

/-- C7: an id that is empty makes `DelTask` send nothing, and an id that no
stored task carries (never submitted, or its task already dispatched and so
removed from its slot) makes `delTask` return without a panic; in both cases
the wheel after the call and after the loop has handled it is the wheel before:
slots, `taskMap` and `curPos` unchanged. -/
theorem C7_delete_absent_id_changes_nothing (tw : TimeWheel) (taskId : String)
    (hr : MapInRange tw) (habs : taskId = "" ∨ NoTaskWithId tw taskId) :
    (match DelTask taskId with
      | none => some tw
      | some sent => delTask tw sent) = some tw ∧
    (taskId = "" → DelTask taskId = none) ∧
    (NoTaskWithId tw taskId → delTask tw taskId = some tw) := by
  refine ⟨?_, ?_, fun hn => delTask_absent tw taskId hr hn⟩
  · unfold DelTask
    by_cases e : taskId = ""
    · rw [if_pos e]
    · rw [if_neg e]
      rcases habs with he | hn
      · exact absurd he e
      · exact delTask_absent tw taskId hr hn
  · intro e
    unfold DelTask
    rw [if_pos e]

/-! ## Ticks -/

theorem tickHandle_eq (tw : TimeWheel) :
    tickHandle tw =
      match slotAt tw.slots (nextPos tw) with
      | none => none
      | some taskHeap =>
        some ({ tw with curPos := nextPos tw,
                        slots := setSlot tw.slots (nextPos tw) (handleTasks taskHeap).1 },
              (handleTasks taskHeap).2) := rfl

theorem nextPos_range (tw : TimeWheel) (hw : WellFormed tw) :
    0 ≤ nextPos tw ∧ nextPos tw < tw.slotNum := by
  obtain ⟨h1, _, h3, h4⟩ := hw
  unfold nextPos
  split <;> omega

/-- On a well-formed wheel a tick does not panic; it works on the slot at
`nextPos` only. -/
theorem tickHandle_wf (tw : TimeWheel) (hw : WellFormed tw) :
    ∃ h, slotAt tw.slots (nextPos tw) = some h ∧
      tickHandle tw =
        some ({ tw with curPos := nextPos tw,
                        slots := setSlot tw.slots (nextPos tw) (handleTasks h).1 },
              (handleTasks h).2) ∧
      WellFormed { tw with curPos := nextPos tw,
                           slots := setSlot tw.slots (nextPos tw) (handleTasks h).1 } := by
  have hr := nextPos_range tw hw
  obtain ⟨h1, h2, h3, h4⟩ := hw
  obtain ⟨h, hs⟩ := slotAt_isSome tw.slots (nextPos tw) hr.1 (by omega)
  refine ⟨h, hs, ?_, ?_⟩
  · rw [tickHandle_eq, hs]
  · exact ⟨h1, by simpa [setSlot_length] using h2, hr.1, hr.2⟩

theorem firedOnTick_zero (tw : TimeWheel) :
    firedOnTick tw 0 = (tickHandle tw).map (fun r => r.2) := rfl

theorem firedOnTick_succ (tw : TimeWheel) (k : Nat) :
    firedOnTick tw (k + 1) =
      match tickHandle tw with
      | none => none
      | some r => firedOnTick r.1 k := by
  unfold firedOnTick
  simp only [tickN]
  cases tickHandle tw <;> rfl

theorem no_tasks_step (tw : TimeWheel) (hw : WellFormed tw) (hn : NoTasks tw) :
    ∃ tw1, tickHandle tw = some (tw1, []) ∧ WellFormed tw1 ∧ NoTasks tw1 := by
  obtain ⟨h, hs, ht, hw1⟩ := tickHandle_wf tw hw
  have hr := nextPos_range tw hw
  have he : h = [] := by
    have := hn (nextPos tw) hr.1 hr.2
    rw [hs] at this
    exact Option.some.inj this
  subst he
  refine ⟨_, ht, hw1, ?_⟩
  intro q hq0 hq1
  simp only at hq1 ⊢
  by_cases e : nextPos tw = q
  · subst e
    rw [slotAt_setSlot_same _ _ _ hr.1 (by have := hw.2.1; omega)]
    rfl
  · rw [slotAt_setSlot_ne _ _ _ _ e]
    exact hn q hq0 hq1

theorem no_tasks_fires_nothing : ∀ (k : Nat) (tw : TimeWheel), WellFormed tw → NoTasks tw →
    firedOnTick tw k = some []
  | 0, tw, hw, hn => by
    obtain ⟨tw1, ht, _, _⟩ := no_tasks_step tw hw hn
    rw [firedOnTick_zero, ht]
    rfl
  | k + 1, tw, hw, hn => by
    obtain ⟨tw1, ht, hw1, hn1⟩ := no_tasks_step tw hw hn
    rw [firedOnTick_succ, ht]
    exact no_tasks_fires_nothing k tw1 hw1 hn1

/-- One tick of a wheel whose only task is `t` in slot `p`. -/
theorem only_task_step (tw : TimeWheel) (p : Int) (t : Task) (hw : WellFormed tw)
    (hp0 : 0 ≤ p) (hp1 : p < tw.slotNum) (ho : OnlyTask tw p t) (hc : 0 ≤ t.circle) :
    ∃ tw1 fired, tickHandle tw = some (tw1, fired) ∧ WellFormed tw1 ∧
      tw1.slotNum = tw.slotNum ∧
      ((fired = [] ∧ OnlyTask tw1 p t ∧ gap tw1 p = gap tw p - 1 ∧ 2 ≤ gap tw p) ∨
       (fired = [] ∧ 1 ≤ t.circle ∧ OnlyTask tw1 p (decCircle t) ∧ gap tw p = 1 ∧
          gap tw1 p = tw.slotNum) ∨
       (fired = [t] ∧ t.circle = 0 ∧ NoTasks tw1 ∧ gap tw p = 1)) := by
  obtain ⟨h, hs, ht, hw1⟩ := tickHandle_wf tw hw
  have hr := nextPos_range tw hw
  have hlen : nextPos tw < (tw.slots.length : Int) := by
    have := hw.2.1
    omega
  obtain ⟨hN, _, hc0, hc1⟩ := hw
  by_cases e : nextPos tw = p
  · have hh : h = [t] := by
      rw [e, ho.1] at hs
      exact (Option.some.inj hs).symm
    subst hh
    have hg : gap tw p = 1 := by
      unfold gap
      unfold nextPos at e
      split at e <;> split <;> omega
    rw [handleTasks_single] at ht hw1
    by_cases hz : t.circle = 0
    · rw [if_pos hz] at ht hw1
      refine ⟨_, _, ht, hw1, rfl, Or.inr (Or.inr ⟨rfl, hz, ?_, hg⟩)⟩
      intro q hq0 hq1
      simp only at hq1 ⊢
      by_cases e2 : nextPos tw = q
      · subst e2
        exact slotAt_setSlot_same _ _ _ hr.1 hlen
      · rw [slotAt_setSlot_ne _ _ _ _ e2]
        exact ho.2 q (by omega) hq0 hq1
    · rw [if_neg hz] at ht hw1
      refine ⟨_, _, ht, hw1, rfl, Or.inr (Or.inl ⟨rfl, by omega, ⟨?_, ?_⟩, hg, ?_⟩)⟩
      · simp only
        rw [e]
        exact slotAt_setSlot_same _ _ _ hp0 (by omega)
      · intro q hqp hq0 hq1
        simp only at hq1 ⊢
        rw [slotAt_setSlot_ne _ _ _ _ (by omega)]
        exact ho.2 q hqp hq0 hq1
      · unfold gap
        simp only
        rw [e]
        split <;> omega
  · have hh : h = [] := by
      rw [ho.2 (nextPos tw) e hr.1 hr.2] at hs
      exact (Option.some.inj hs).symm
    subst hh
    rw [handleTasks_nil] at ht hw1
    refine ⟨_, _, ht, hw1, rfl, Or.inl ⟨rfl, ⟨?_, ?_⟩, ?_, ?_⟩⟩
    · simp only
      rw [slotAt_setSlot_ne _ _ _ _ e]
      exact ho.1
    · intro q hqp hq0 hq1
      simp only at hq1 ⊢
      by_cases e2 : nextPos tw = q
      · subst e2
        exact slotAt_setSlot_same _ _ _ hr.1 hlen
      · rw [slotAt_setSlot_ne _ _ _ _ e2]
        exact ho.2 q hqp hq0 hq1
    · unfold gap
      simp only
      unfold nextPos at e ⊢
      split at e <;> split <;> split <;> omega
    · unfold gap
      unfold nextPos at e
      split at e <;> split <;> omega

theorem zero_circle_eq (t : Task) (hz : t.circle = 0) : ({ t with circle := 0 } : Task) = t := by
  cases t
  simp only at hz
  subst hz
  rfl

/-- A wheel whose only task is `t`, in slot `p`, with `circle ≥ 0`: tick number
`k + 1` dispatches `t` exactly when `k + 1 = gap + circle * slotNum`, and no
other tick dispatches anything. -/
theorem only_task_fires : ∀ (k : Nat) (tw : TimeWheel) (p : Int) (t : Task), WellFormed tw →
    0 ≤ p → p < tw.slotNum → OnlyTask tw p t → 0 ≤ t.circle →
    firedOnTick tw k =
      some (if (k : Int) + 1 = gap tw p + t.circle * tw.slotNum
        then [{ t with circle := 0 }] else [])
  | 0, tw, p, t, hw, hp0, hp1, ho, hc => by
    obtain ⟨tw1, fired, ht, hw1, hN, hcase⟩ := only_task_step tw p t hw hp0 hp1 ho hc
    rw [firedOnTick_zero, ht]
    have hN1 : 1 ≤ tw.slotNum := hw.1
    have hm : 0 ≤ t.circle * tw.slotNum := mul_nonneg hc (by omega)
    rcases hcase with ⟨hf, _, _, hg⟩ | ⟨hf, hc1, _, hg, _⟩ | ⟨hf, hz, _, hg⟩
    · subst hf
      rw [if_neg (by push_cast; omega)]
      rfl
    · subst hf
      have hm1 : 1 ≤ t.circle * tw.slotNum := by nlinarith
      rw [if_neg (by push_cast; omega)]
      rfl
    · subst hf
      rw [if_pos (by rw [hg, hz]; simp), zero_circle_eq t hz]
      rfl
  | k + 1, tw, p, t, hw, hp0, hp1, ho, hc => by
    obtain ⟨tw1, fired, ht, hw1, hN, hcase⟩ := only_task_step tw p t hw hp0 hp1 ho hc
    rw [firedOnTick_succ, ht]
    simp only
    have hN1 : 1 ≤ tw.slotNum := hw.1
    have hm : 0 ≤ t.circle * tw.slotNum := mul_nonneg hc (by omega)
    rcases hcase with ⟨_, ho1, hg1, hg⟩ | ⟨_, hc1, ho1, hg, hg1⟩ | ⟨_, hz, hn1, hg⟩
    · rw [only_task_fires k tw1 p t hw1 hp0 (by omega) ho1 hc, hN, hg1]
      by_cases hk : (k : Int) + 1 = gap tw p - 1 + t.circle * tw.slotNum
      · rw [if_pos hk, if_pos (by push_cast; omega)]
      · rw [if_neg hk, if_neg (by push_cast; omega)]
    · have hdc : (decCircle t).circle = t.circle - 1 := rfl
      have hmul : (t.circle - 1) * tw.slotNum = t.circle * tw.slotNum - tw.slotNum := by ring
      rw [only_task_fires k tw1 p (decCircle t) hw1 hp0 (by omega) ho1 (by rw [hdc]; omega),
        hN, hg1, hdc, hmul]
      have hrec : ({ decCircle t with circle := 0 } : Task) = { t with circle := 0 } := rfl
      rw [hrec]
      by_cases hk : (k : Int) + 1 = tw.slotNum + (t.circle * tw.slotNum - tw.slotNum)
      · rw [if_pos hk, if_pos (by push_cast; omega)]
      · rw [if_neg hk, if_neg (by push_cast; omega)]
    · rw [no_tasks_fires_nothing k tw1 hw1 hn1, if_neg (by rw [hg, hz]; push_cast; omega)]

theorem gap_range (tw : TimeWheel) (p : Int) (hw : WellFormed tw) (hp0 : 0 ≤ p)
    (hp1 : p < tw.slotNum) : 1 ≤ gap tw p ∧ gap tw p ≤ tw.slotNum := by
  obtain ⟨_, _, hc0, hc1⟩ := hw
  unfold gap
  split <;> omega

/-- The pointer after `j` ticks: `(curPos + j) mod slotNum`; no tick panics. -/
theorem tickN_curPos : ∀ (j : Nat) (tw : TimeWheel), WellFormed tw →
    ∃ tw1, tickN j tw = some tw1 ∧ WellFormed tw1 ∧ tw1.slotNum = tw.slotNum ∧
      tw1.curPos = (tw.curPos + j) % tw.slotNum
  | 0, tw, hw => by
    refine ⟨tw, rfl, hw, rfl, ?_⟩
    obtain ⟨_, _, hc0, hc1⟩ := hw
    simp only [Nat.cast_zero, add_zero]
    exact (Int.emod_eq_of_lt hc0 hc1).symm
  | j + 1, tw, hw => by
    obtain ⟨h, _, ht, hw1⟩ := tickHandle_wf tw hw
    obtain ⟨tw1, ht1, hw2, hN, hpos⟩ := tickN_curPos j _ hw1
    refine ⟨tw1, ?_, hw2, hN, ?_⟩
    · rw [tickN, ht]
      exact ht1
    · rw [hpos]
      simp only
      unfold nextPos
      push_cast
      split
      · rename_i hc
        have e : tw.curPos + (↑j + 1) = 0 + (j : Int) + 1 * tw.slotNum := by omega
        rw [e, Int.add_mul_emod_self]
      · congr 1
        omega

/-- The ticks on which the pointer is on slot `p` are the ticks
`gap + v * slotNum`, `v = 0, 1, 2, ...`. -/
theorem pointer_visits (tw : TimeWheel) (p : Int) (hw : WellFormed tw) (hp0 : 0 ≤ p)
    (hp1 : p < tw.slotNum) (j : Nat) (hj : 1 ≤ j) :
    ∃ tw1, tickN j tw = some tw1 ∧
      (tw1.curPos = p ↔ ∃ v : Nat, (j : Int) = gap tw p + v * tw.slotNum) := by
  obtain ⟨tw1, ht, _, _, hpos⟩ := tickN_curPos j tw hw
  refine ⟨tw1, ht, ?_⟩
  obtain ⟨hN, _, hc0, hc1⟩ := hw
  rw [hpos]
  constructor
  · intro hm
    have hdiv := Int.emod_add_ediv (tw.curPos + j) tw.slotNum
    rw [hm] at hdiv
    have hq0 : 0 ≤ (tw.curPos + j) / tw.slotNum :=
      Int.ediv_nonneg (by omega) (by omega)
    generalize (tw.curPos + (j : Int)) / tw.slotNum = q at hdiv hq0
    unfold gap
    split
    · refine ⟨q.toNat, ?_⟩
      rw [Int.toNat_of_nonneg hq0, mul_comm]
      omega
    · have hq1 : 1 ≤ q := by
        by_contra hlt
        have hq : q = 0 := by omega
        rw [hq] at hdiv
        omega
      refine ⟨(q - 1).toNat, ?_⟩
      rw [Int.toNat_of_nonneg (by omega), sub_mul, mul_comm q]
      omega
  · rintro ⟨v, hv⟩
    rw [hv]
    unfold gap
    split
    · have e : tw.curPos + (p - tw.curPos + (v : Int) * tw.slotNum) = p + v * tw.slotNum := by
        ring
      rw [e, Int.add_mul_emod_self]
      exact Int.emod_eq_of_lt hp0 hp1
    · have e : tw.curPos + (p + tw.slotNum - tw.curPos + (v : Int) * tw.slotNum) =
          p + ((v : Int) + 1) * tw.slotNum := by ring
      rw [e, Int.add_mul_emod_self]
      exact Int.emod_eq_of_lt hp0 hp1

/-- C10: in a wheel (`slotNum ≥ 1`) whose only task is `t`, stored in slot `p`
with `circle = c ≥ 0`, and that is driven by ticks only: with `d = gap`, the
number of ticks until the pointer is first on `p` (`1 ≤ d ≤ slotNum`), the
pointer is on `p` exactly on the ticks `d + v * slotNum`; the task is
dispatched on tick `d + c * slotNum`, the visit number `c + 1`, on no other
tick, and so on none of the first `c` visits. -/
theorem C10_only_task_fires_on_visit_after_circle (tw : TimeWheel) (p : Int) (t : Task)
    (hw : WellFormed tw) (hp0 : 0 ≤ p) (hp1 : p < tw.slotNum) (ho : OnlyTask tw p t)
    (hc : 0 ≤ t.circle) :
    (1 ≤ gap tw p ∧ gap tw p ≤ tw.slotNum) ∧
    (∀ j : Nat, 1 ≤ j → ∃ tw1, tickN j tw = some tw1 ∧
        (tw1.curPos = p ↔ ∃ v : Nat, (j : Int) = gap tw p + v * tw.slotNum)) ∧
    (∀ k : Nat, firedOnTick tw k =
        some (if (k : Int) + 1 = gap tw p + t.circle * tw.slotNum
          then [{ t with circle := 0 }] else [])) ∧
    (∀ (v k : Nat), (v : Int) < t.circle → (k : Int) + 1 = gap tw p + v * tw.slotNum →
        firedOnTick tw k = some []) := by
  refine ⟨gap_range tw p hw hp0 hp1, fun j hj => pointer_visits tw p hw hp0 hp1 j hj,
    fun k => only_task_fires k tw p t hw hp0 hp1 ho hc, ?_⟩
  intro v k hv hk
  rw [only_task_fires k tw p t hw hp0 hp1 ho hc, if_neg]
  intro e
  have hN : 1 ≤ tw.slotNum := hw.1
  have : (v : Int) * tw.slotNum = t.circle * tw.slotNum := by omega
  have hlt : (v : Int) * tw.slotNum < t.circle * tw.slotNum :=
    mul_lt_mul_of_pos_right hv (by omega)
  omega

/-! ## Tasks that cannot be dispatched -/

theorem heap.Remove_perm {h h1 : TaskHeap} {i : Nat} {x : Task}
    (e : heap.Remove h i = some (x, h1)) : (x :: h1).Perm h := by
  by_cases hi : i < h.length
  · obtain ⟨y, g, hr, _, hp⟩ := heap.Remove_spec h i hi
    rw [hr] at e
    cases e
    exact hp
  · unfold heap.Remove at e
    rw [if_pos (by omega)] at e
    cases e

/-- While the pointer stays off slot `c0`, which alone may hold the id, no tick
dispatches a task with the id. -/
theorem quiet_ticks : ∀ (k : Nat) (tw : TimeWheel) (taskId : String) (c0 : Int),
    WellFormed tw → 0 ≤ c0 → c0 < tw.slotNum →
    (∀ q h, q ≠ c0 → slotAt tw.slots q = some h → ∀ u ∈ h, u.id ≠ taskId) →
    (k : Int) + 1 < gap tw c0 →
    ∃ fired, firedOnTick tw k = some fired ∧ ∀ u ∈ fired, u.id ≠ taskId := by
  intro k
  induction k with
  | zero =>
    intro tw taskId c0 hw h0 h1 hfree hk
    obtain ⟨h, hs, ht, _⟩ := tickHandle_wf tw hw
    obtain ⟨_, _, hc0, hc1⟩ := hw
    have hne : nextPos tw ≠ c0 := by
      unfold gap at hk
      unfold nextPos
      simp only [Nat.cast_zero] at hk
      split at hk <;> split <;> omega
    refine ⟨(handleTasks h).2, by rw [firedOnTick_zero, ht]; rfl, ?_⟩
    intro u hu
    exact hfree _ h hne hs u (handleTasks_fired_mem h u hu)
  | succ k ih =>
    intro tw taskId c0 hw h0 h1 hfree hk
    obtain ⟨h, hs, ht, hw1⟩ := tickHandle_wf tw hw
    have hr := nextPos_range tw hw
    have hlen : nextPos tw < (tw.slots.length : Int) := by
      have := hw.2.1
      omega
    obtain ⟨_, _, hc0, hc1⟩ := hw
    have hne : nextPos tw ≠ c0 := by
      unfold gap at hk
      unfold nextPos
      push_cast at hk
      split at hk <;> split <;> omega
    rw [firedOnTick_succ, ht]
    simp only
    apply ih _ taskId c0 hw1 h0 h1
    · intro q g hq hg u hu
      simp only at hg
      by_cases e : nextPos tw = q
      · subst e
        rw [slotAt_setSlot_same _ _ _ hr.1 hlen] at hg
        cases hg
        obtain ⟨w, hw2, hwid⟩ := handleTasks_kept_id h u hu
        rw [← hwid]
        exact hfree _ h hne hs w hw2
      · rw [slotAt_setSlot_ne _ _ _ _ e] at hg
        exact hfree q g hq hg u hu
    · unfold gap at hk ⊢
      simp only
      unfold nextPos at hne ⊢
      push_cast at hk
      split at hk <;> split <;> split <;> omega

/-- One request served by the loop keeps a wheel free of the id and dispatches
no task with the id, unless the request adds the id. -/
theorem step_keeps_absent (tw tw1 : TimeWheel) (taskId : String) (r : Request)
    (fired : List Task) (habs : NoTaskWithId tw taskId) (hr : addedId r ≠ some taskId)
    (hs : step tw r = some (tw1, fired)) :
    NoTaskWithId tw1 taskId ∧ ∀ u ∈ fired, u.id ≠ taskId := by
  cases r with
  | tick =>
    simp only [step] at hs
    rw [tickHandle_eq] at hs
    cases hsl : slotAt tw.slots (nextPos tw) with
    | none => simp [hsl] at hs
    | some h =>
      simp only [hsl, Option.some.injEq, Prod.mk.injEq] at hs
      obtain ⟨rfl, rfl⟩ := hs
      have hh := habs h (slotAt_mem hsl)
      constructor
      · intro g hg u hu
        rcases mem_setSlot hg with hg | hg
        · exact habs g hg u hu
        · subst hg
          obtain ⟨w, hw, hwid⟩ := handleTasks_kept_id h u hu
          rw [← hwid]
          exact hh w hw
      · intro u hu
        exact hh u (handleTasks_fired_mem h u hu)
  | add task uuid =>
    have hid : storedId task uuid ≠ taskId := fun e => hr (by simp [addedId, e])
    simp only [step, addTask] at hs
    split at hs
    · simp only [Option.map_some', Option.some.injEq, Prod.mk.injEq] at hs
      obtain ⟨rfl, rfl⟩ := hs
      exact ⟨habs, by simp⟩
    · cases hg : getTaskPos tw task with
      | none => simp [hg] at hs
      | some cp =>
        obtain ⟨circ, pos⟩ := cp
        simp only [hg] at hs
        cases hsl : slotAt tw.slots pos with
        | none => simp [hsl] at hs
        | some h =>
          simp only [hsl, Option.map_some', Option.some.injEq, Prod.mk.injEq] at hs
          obtain ⟨rfl, rfl⟩ := hs
          refine ⟨?_, by simp⟩
          intro g hg u hu
          rcases mem_setSlot hg with hg | hg
          · exact habs g hg u hu
          · subst hg
            have hu2 := (heap.Push_perm h _).subset hu
            rcases List.mem_cons.mp hu2 with hu3 | hu3
            · rw [hu3]
              exact hid
            · exact habs h (slotAt_mem hsl) u hu3
  | del delId =>
    simp only [step] at hs
    cases hdl : delTask tw delId with
    | none => simp [hdl] at hs
    | some w =>
      simp only [hdl, Option.map_some', Option.some.injEq, Prod.mk.injEq] at hs
      obtain ⟨rfl, rfl⟩ := hs
      refine ⟨?_, by simp⟩
      unfold delTask at hdl
      split at hdl
      · cases hdl
        exact habs
      · split at hdl
        · cases hdl
        · rename_i pos _ h hsl
          split at hdl
          · cases hdl
            exact habs
          · split at hdl
            · cases hdl
              exact habs
            · split at hdl
              · cases hdl
              · rename_i rr hrem
                cases hdl
                intro g hg u hu
                rcases mem_setSlot hg with hg | hg
                · exact habs g hg u hu
                · subst hg
                  have hp := heap.Remove_perm (show heap.Remove _ _ = some (rr.1, rr.2) from hrem)
                  exact habs h (slotAt_mem hsl) u (hp.subset (List.mem_cons_of_mem _ hu))

/-- No sequence of requests that never adds the id makes the loop dispatch a
task with the id from a wheel that does not store it. -/
theorem runLog_absent : ∀ (reqs : List Request) (tw : TimeWheel) (taskId : String),
    NoTaskWithId tw taskId → (∀ r ∈ reqs, addedId r ≠ some taskId) →
    ∀ u ∈ runLog reqs tw, u.id ≠ taskId
  | [], _, _, _, _ => by simp [runLog]
  | r :: rest, tw, taskId, habs, hreq => by
    unfold runLog
    cases hs : step tw r with
    | none => simp
    | some res =>
      obtain ⟨tw1, fired⟩ := res
      obtain ⟨h1, h2⟩ := step_keeps_absent tw tw1 taskId r fired habs
        (hreq r (List.mem_cons_self _ _)) hs
      intro u hu
      simp only at hu
      rcases List.mem_append.mp hu with hu | hu
      · exact h2 u hu
      · exact runLog_absent rest tw1 taskId h1
          (fun r2 hr2 => hreq r2 (List.mem_cons_of_mem _ hr2)) u hu

/-- C3: for a wheel whose stored ids are pairwise distinct and a task `t` with
id `taskId` pending in it (stored in the slot that `taskMap` records), once
`delTask(taskId)` has been processed no sequence of tick, add and delete
requests, whose adds bring new ids, makes the loop dispatch a task with that
id: the handler of the deleted task is never invoked. -/
theorem C3_deleted_task_is_never_dispatched (tw : TimeWheel) (taskId : String) (p : Int)
    (h : TaskHeap) (t : Task) (hd : DistinctIds tw)
    (hmap : mapGet tw.taskMap taskId = some p) (hslot : slotAt tw.slots p = some h)
    (ht : t ∈ h) (hid : t.id = taskId) :
    ∃ tw1, delTask tw taskId = some tw1 ∧
      ∀ reqs : List Request, (∀ r ∈ reqs, addedId r ≠ some taskId) →
        ∀ u ∈ runLog reqs tw1, u.id ≠ taskId := by
  obtain ⟨h1, hdel, _, hno⟩ := delTask_pending tw taskId p h t hd hmap hslot ht hid
  refine ⟨_, hdel, ?_⟩
  intro reqs hreq
  exact runLog_absent reqs _ taskId
    (delTask_pending_absent tw taskId p h h1 t hd hslot ht hid hno) hreq

/-! ## Placement -/

/-- The quotient `ceilQuot` computes is the ceiling of the exact quotient. -/
theorem ceilQuot_eq_ceil (a b : Int) (hb : 0 < b) : ceilQuot a b = ⌈(a : ℚ) / (b : ℚ)⌉ := by
  unfold ceilQuot
  rw [Int.fdiv_eq_ediv _ (le_of_lt hb)]
  symm
  rw [Int.ceil_eq_iff]
  have h1 := Int.emod_add_ediv (-a) b
  have h2 := Int.emod_nonneg (-a) (ne_of_gt hb)
  have h3 := Int.emod_lt_of_pos (-a) hb
  generalize (-a) / b = q at h1
  generalize (-a) % b = r at h1 h2 h3
  have hbq : (0 : ℚ) < (b : ℚ) := by exact_mod_cast hb
  have ha : a = -(r + b * q) := by omega
  constructor
  · rw [lt_div_iff₀ hbq]
    have : (-q - 1) * b < a := by
      rw [ha]
      nlinarith
    exact_mod_cast this
  · rw [div_le_iff₀ hbq]
    have : a ≤ (-q) * b := by
      rw [ha]
      nlinarith
    exact_mod_cast this

theorem ceilQuot_nonneg (a b : Int) (ha : 0 ≤ a) (hb : 0 < b) : 0 ≤ ceilQuot a b := by
  unfold ceilQuot
  rw [Int.fdiv_eq_ediv _ (le_of_lt hb)]
  have : (-a) / b ≤ 0 := Int.ediv_le_of_le_mul hb (by omega)
  omega

theorem ceilQuot_mul_self (n s : Int) (hs : 0 < s) : ceilQuot (n * s) s = n := by
  unfold ceilQuot
  rw [Int.fdiv_eq_ediv _ (le_of_lt hs), show -(n * s) = (-n) * s by ring,
    Int.mul_ediv_cancel _ (ne_of_gt hs), neg_neg]

/-! ### The second count of a duration -/

theorem natSeconds_ge (d : Nat) : d / 1000000000 ≤ natSeconds d := by
  unfold natSeconds
  simp only
  split <;> omega

theorem natSeconds_le (d : Nat) : natSeconds d ≤ d / 1000000000 + 1 := by
  unfold natSeconds
  simp only
  split <;> omega

theorem natSeconds_whole (s : Nat) : natSeconds (s * 1000000000) = s := by
  unfold natSeconds
  simp only
  rw [Nat.mul_mod_left, Nat.mul_div_cancel s (by decide)]
  rw [if_neg (fun h => h.2.1 rfl)]

theorem binadeTop_le (j : Nat) : ∀ (fuel i sec : Nat), i ≤ j → sec < 2 ^ j →
    binadeTop fuel (2 ^ i) sec ≤ 2 ^ j := by
  intro fuel
  induction fuel with
  | zero =>
    intro i sec hi _
    exact Nat.pow_le_pow_right (by decide) hi
  | succ f ih =>
    intro i sec hi hs
    unfold binadeTop
    split
    · exact Nat.pow_le_pow_right (by decide) hi
    · rename_i hlt
      have h1 : 2 ^ i ≤ sec := Nat.le_of_not_lt hlt
      have h2 : i < j := (Nat.pow_lt_pow_iff_right (by decide)).mp (lt_of_le_of_lt h1 hs)
      rw [← Nat.pow_succ']
      exact ih (i + 1) sec h2 hs

/-- Below `2^24` seconds the sum of `Seconds` never rounds up. -/
theorem natSeconds_small (d : Nat) (hd : d < 16777216 * 1000000000) :
    natSeconds d = d / 1000000000 := by
  unfold natSeconds
  simp only
  have hs : d / 1000000000 < 2 ^ 24 := by
    rw [Nat.div_lt_iff_lt_mul (by decide)]
    exact hd
  have hb := binadeTop_le 24 64 0 (d / 1000000000) (by decide) hs
  have hm : d % 1000000000 < 1000000000 := Nat.mod_lt _ (by decide)
  rw [if_neg]
  rintro ⟨_, _, h3⟩
  simp only [pow_zero] at hb
  norm_num at hb h3
  omega

theorem intSeconds_mul_Second (s : Int) : intSeconds (s * Second) = s := by
  unfold intSeconds Second
  have hn : (s * 1000000000).natAbs = s.natAbs * 1000000000 := by
    rw [Int.natAbs_mul]
    rfl
  rw [hn, natSeconds_whole]
  by_cases h : s * (1000000000 : Int) < 0
  · rw [if_pos h]
    omega
  · rw [if_neg h]
    omega

theorem intSeconds_of_nonneg (d : Int) (hd : 0 ≤ d) :
    intSeconds d = ((natSeconds d.toNat : Nat) : Int) := by
  unfold intSeconds
  rw [if_neg (not_lt.mpr hd)]
  have h : d.natAbs = d.toNat := by omega
  rw [h]

/-- The value `int(d.Seconds())` of a duration `d ≥ 0` is the whole number of
seconds in `d` or, where the sum rounds up, one more. -/
theorem intSeconds_bounds (d : Int) (hd : 0 ≤ d) :
    d / Second ≤ intSeconds d ∧ intSeconds d ≤ d / Second + 1 := by
  rw [intSeconds_of_nonneg d hd]
  have h1 := natSeconds_ge d.toNat
  have h2 := natSeconds_le d.toNat
  have h3 : ((d.toNat / 1000000000 : Nat) : Int) = d / Second := by
    rw [Int.natCast_div, Int.toNat_of_nonneg hd]
    rfl
  rw [← h3]
  constructor <;> omega

/-- Below `2^24` seconds `int(d.Seconds())` is the whole number of seconds in
`d`. -/
theorem intSeconds_small (d : Int) (hd : 0 ≤ d) (hlt : d < 16777216 * Second) :
    intSeconds d = d / Second := by
  have hlt2 : d < 16777216 * (1000000000 : Int) := hlt
  rw [intSeconds_of_nonneg d hd, natSeconds_small]
  · rw [Int.natCast_div, Int.toNat_of_nonneg hd]
    rfl
  · omega

theorem intSeconds_pos (d : Int) (hd : Second ≤ d) : 1 ≤ intSeconds d := by
  have hd2 : (1000000000 : Int) ≤ d := hd
  have h0 : (0 : Int) ≤ d := by omega
  have h1 := (intSeconds_bounds d h0).1
  have h2 : (1 : Int) ≤ d / (1000000000 : Int) := by omega
  have h3 : d / Second = d / (1000000000 : Int) := rfl
  rw [h3] at h1
  omega

theorem intSeconds_nonneg (d : Int) (hd : 0 ≤ d) : 0 ≤ intSeconds d := by
  rw [intSeconds_of_nonneg d hd]
  exact Int.natCast_nonneg _

/-- From `2^24` seconds on the sum of `Seconds` can round up: a delay of
`16777216.999999999s` has the second count `16777217`, one second earlier the
same fraction is dropped, and on the wheel of the test (`interval = 1s`) the
delay gets `16777217` ticks. -/
theorem intSeconds_rounds_up :
    intSeconds 16777216999999999 = 16777217 ∧ intSeconds 16777215999999999 = 16777215 ∧
    intSeconds (-16777216999999999) = -16777217 ∧
    getTaskTicks testWheel { testTask1 with delay := 16777216999999999 } = some 16777217 := by
  decide

/-- What a successful `addTask` does to the wheel when the slot `pos` exists. -/
theorem addTask_placed (tw : TimeWheel) (task : Task) (uuid : String) (circ pos : Int)
    (h : TaskHeap) (hdelay : 0 < task.delay) (hpos : getTaskPos tw task = some (circ, pos))
    (hslot : slotAt tw.slots pos = some h) :
    addTask tw task uuid =
      some ({ tw with
                slots := setSlot tw.slots pos
                  (heap.Push h { task with id := storedId task uuid, circle := circ }),
                taskMap := mapSet tw.taskMap (storedId task uuid) pos },
            (true, storedId task uuid)) := by
  unfold addTask
  rw [if_neg (not_le.mpr hdelay)]
  simp only [hpos, hslot]
  rfl

/-- C5: on a well-formed wheel (`slotNum ≥ 1`) with an interval of at least one
second, `AddTask` with `delay ≥ interval` returns `(uuid, true)`, the non-empty
id drawn from the generator, and sends the task; when the loop handles it
(`addTask`), the task with that id, handler and data is in slot
`pos = (curPos + ticks) mod slotNum` with `circle = ticks / slotNum`, the slot
keeps its other tasks, `taskMap[id] = pos`, and every other slot, every other
`taskMap` entry, `curPos`, `slotNum` and `interval` are unchanged.  Here `ticks`
is the tick count `getTaskPos` derives from the delay (`getTaskTicks`): at least
one, and the ceiling of the quotient of the second counts `int(delay.Seconds())`
and `int(interval.Seconds())`, each of which is the whole number of seconds in
the duration or one more, and the whole number of seconds below `2^24`
seconds. -/
theorem C5_AddTask_stores_the_task (tw : TimeWheel) (delay : Duration) (hd : Handler)
    (data : Nat) (uuid uuid2 : String) (hw : WellFormed tw) (hint : Second ≤ tw.interval)
    (hdel : tw.interval ≤ delay) (hu : uuid ≠ "") :
    ∃ ticks h h1 tw1,
      AddTask tw delay hd data uuid =
        ((uuid, true),
          some { id := uuid, handler := hd, data := data, circle := 0, delay := delay }) ∧
      (AddTask tw delay hd data uuid).1.1 ≠ "" ∧
      getTaskTicks tw { id := uuid, handler := hd, data := data, circle := 0, delay := delay } =
        some ticks ∧
      0 ≤ ticks ∧
      1 ≤ ticks ∧
      ticks = ⌈((intSeconds delay : Int) : ℚ) / ((intSeconds tw.interval : Int) : ℚ)⌉ ∧
      (delay / Second ≤ intSeconds delay ∧ intSeconds delay ≤ delay / Second + 1) ∧
      (tw.interval / Second ≤ intSeconds tw.interval ∧
        intSeconds tw.interval ≤ tw.interval / Second + 1) ∧
      (delay < 16777216 * Second → intSeconds delay = delay / Second) ∧
      (tw.interval < 16777216 * Second → intSeconds tw.interval = tw.interval / Second) ∧
      addTask tw { id := uuid, handler := hd, data := data, circle := 0, delay := delay } uuid2 =
        some (tw1, (true, uuid)) ∧
      slotAt tw.slots ((tw.curPos + ticks) % tw.slotNum) = some h ∧
      slotAt tw1.slots ((tw.curPos + ticks) % tw.slotNum) = some h1 ∧
      h1.Perm ({ id := uuid, handler := hd, data := data, circle := ticks / tw.slotNum,
                 delay := delay } :: h) ∧
      (∀ q, q ≠ (tw.curPos + ticks) % tw.slotNum → slotAt tw1.slots q = slotAt tw.slots q) ∧
      tw1.slots.length = tw.slots.length ∧
      mapGet tw1.taskMap uuid = some ((tw.curPos + ticks) % tw.slotNum) ∧
      (∀ k, k ≠ uuid → mapGet tw1.taskMap k = mapGet tw.taskMap k) ∧
      tw1.curPos = tw.curPos ∧ tw1.slotNum = tw.slotNum ∧ tw1.interval = tw.interval := by
  obtain ⟨hN, hlen, hc0, hc1⟩ := hw
  have hi1 : 1 ≤ intSeconds tw.interval := intSeconds_pos _ hint
  have hd1 : 1 ≤ intSeconds delay := intSeconds_pos _ (le_trans hint hdel)
  have hdpos : (0 : Int) < delay :=
    lt_of_lt_of_le (by decide : (0 : Int) < Second) (le_trans hint hdel)
  have hticks0 : 0 ≤ ceilQuot (intSeconds delay) (intSeconds tw.interval) :=
    ceilQuot_nonneg (intSeconds delay) (intSeconds tw.interval)
      (le_trans (by decide) hd1) (lt_of_lt_of_le (by decide) hi1)
  have hce := ceilQuot_eq_ceil (intSeconds delay) (intSeconds tw.interval)
    (lt_of_lt_of_le (by decide) hi1)
  have hone : 1 ≤ ceilQuot (intSeconds delay) (intSeconds tw.interval) := by
    rw [hce]
    have hq : (0 : ℚ) < ((intSeconds delay : Int) : ℚ) / ((intSeconds tw.interval : Int) : ℚ) :=
      div_pos (by exact_mod_cast lt_of_lt_of_le (by decide : (0 : Int) < 1) hd1)
        (by exact_mod_cast lt_of_lt_of_le (by decide : (0 : Int) < 1) hi1)
    have := Int.ceil_pos.mpr hq
    omega
  have hi0 : (0 : Int) ≤ tw.interval :=
    le_trans (by decide : (0 : Int) ≤ Second) hint
  generalize hT : ceilQuot (intSeconds delay) (intSeconds tw.interval) = ticks
    at hticks0 hce hone
  have hgt : getTaskTicks tw
      { id := uuid, handler := hd, data := data, circle := 0, delay := delay } = some ticks := by
    unfold getTaskTicks
    simp only
    rw [if_neg (by omega), hT]
  have hdiv : Int.tdiv ticks tw.slotNum = ticks / tw.slotNum :=
    Int.tdiv_eq_ediv hticks0 (by omega)
  have hmod : Int.tmod (tw.curPos + ticks) tw.slotNum = (tw.curPos + ticks) % tw.slotNum :=
    Int.tmod_eq_emod (by omega) (by omega)
  have hgp : getTaskPos tw
      { id := uuid, handler := hd, data := data, circle := 0, delay := delay } =
      some (ticks / tw.slotNum, (tw.curPos + ticks) % tw.slotNum) := by
    unfold getTaskPos
    rw [hgt]
    simp only
    rw [if_neg (by omega), hdiv, hmod]
  have hp0 : 0 ≤ (tw.curPos + ticks) % tw.slotNum := Int.emod_nonneg _ (by omega)
  have hp1 : (tw.curPos + ticks) % tw.slotNum < tw.slotNum := Int.emod_lt_of_pos _ (by omega)
  obtain ⟨h, hs⟩ := slotAt_isSome tw.slots _ hp0 (by omega)
  have hadd := addTask_placed tw
    { id := uuid, handler := hd, data := data, circle := 0, delay := delay } uuid2 _ _ h
    hdpos hgp hs
  have hsid : storedId
      { id := uuid, handler := hd, data := data, circle := 0, delay := delay } uuid2 = uuid := by
    unfold storedId
    simp only
    rw [if_neg hu]
  rw [hsid] at hadd
  have hA : AddTask tw delay hd data uuid =
      ((uuid, true),
        some { id := uuid, handler := hd, data := data, circle := 0, delay := delay }) := by
    unfold AddTask
    rw [if_neg (not_lt.mpr hdel)]
  refine ⟨ticks, h, _, _, hA, by rw [hA]; exact hu, hgt, hticks0, hone, hce,
    intSeconds_bounds delay (le_of_lt hdpos), intSeconds_bounds tw.interval hi0,
    intSeconds_small delay (le_of_lt hdpos), intSeconds_small tw.interval hi0, hadd, hs,
    slotAt_setSlot_same _ _ _ hp0 (by omega), heap.Push_perm h _, ?_, setSlot_length _ _ _,
    mapGet_mapSet_same _ _ _, fun k hk => mapGet_mapSet_ne _ _ _ _ hk, rfl, rfl, rfl⟩
  intro q hq
  exact slotAt_setSlot_ne _ _ _ _ (Ne.symm hq)

/-- On a well-formed wheel (`slotNum = N ≥ 1`, any contents) whose interval is
a whole number `s ≥ 1` of seconds, a task with `delay = N * interval` whose id
no stored task carries is placed by `addTask` in the slot at `curPos` with
`circle = 1` (the slot keeps its other tasks), and none of the first `N - 1`
ticks after that dispatches a task with its id. -/
theorem full_turn_delay_lands_on_curPos (tw : TimeWheel) (task : Task) (uuid : String)
    (s : Int) (hw : WellFormed tw) (hs : 1 ≤ s) (hint : tw.interval = s * Second)
    (hdelay : task.delay = tw.slotNum * tw.interval)
    (hfresh : NoTaskWithId tw (storedId task uuid)) :
    ∃ h h1 tw1,
      getTaskTicks tw task = some tw.slotNum ∧
      getTaskPos tw task = some (1, tw.curPos) ∧
      addTask tw task uuid = some (tw1, (true, storedId task uuid)) ∧
      slotAt tw.slots tw.curPos = some h ∧
      slotAt tw1.slots tw.curPos = some h1 ∧
      h1.Perm ({ task with id := storedId task uuid, circle := 1 } :: h) ∧
      tw1.curPos = tw.curPos ∧
      ∀ k : Nat, (k : Int) + 1 < tw.slotNum →
        ∃ fired, firedOnTick tw1 k = some fired ∧ ∀ u ∈ fired, u.id ≠ storedId task uuid := by
  have hw0 := hw
  obtain ⟨hN, hlen, hc0, hc1⟩ := hw
  have hsec : (0 : Int) < Second := by decide
  have hi : intSeconds tw.interval = s := by rw [hint, intSeconds_mul_Second]
  have hdl : intSeconds task.delay = tw.slotNum * s := by
    rw [hdelay, hint, ← mul_assoc, intSeconds_mul_Second]
  have hdpos : 0 < task.delay := by
    rw [hdelay, hint]
    exact mul_pos (show (0 : Int) < tw.slotNum by omega)
      (mul_pos (show (0 : Int) < s by omega) hsec)
  have hgt : getTaskTicks tw task = some tw.slotNum := by
    unfold getTaskTicks
    simp only
    rw [hi, hdl, if_neg (by omega), ceilQuot_mul_self _ _ (by omega)]
  have hgp : getTaskPos tw task = some (1, tw.curPos) := by
    unfold getTaskPos
    rw [hgt]
    simp only
    rw [if_neg (by omega), Int.tdiv_self (by omega), Int.tmod_eq_emod (by omega) (by omega),
      Int.add_emod_self, Int.emod_eq_of_lt hc0 hc1]
  obtain ⟨h, hsl⟩ := slotAt_isSome tw.slots tw.curPos hc0 (by omega)
  have hadd := addTask_placed tw task uuid 1 tw.curPos h hdpos hgp hsl
  refine ⟨h, _, _, hgt, hgp, hadd, hsl, slotAt_setSlot_same _ _ _ hc0 (by omega),
    heap.Push_perm h _, rfl, ?_⟩
  intro k hk
  apply quiet_ticks k _ (storedId task uuid) tw.curPos
  · exact ⟨hN, by simpa [setSlot_length] using hlen, hc0, hc1⟩
  · exact hc0
  · exact hc1
  · intro q g hq hg u hu
    simp only at hg
    rw [slotAt_setSlot_ne _ _ _ _ (Ne.symm hq)] at hg
    exact hfresh g (slotAt_mem hg) u hu
  · unfold gap
    simp only
    rw [if_neg (lt_irrefl _)]
    omega

/-! ## The claims evaluated on concrete wheels -/

/-- C1: a slot that is a valid heap and holds a task with `circle = 1` and a
task with `circle = 0`: `handleTasks` dispatches nothing, the due task stays in
the slot and its `circle` becomes `-1`.  On a wheel of two slots the one-second
task added together with a three-second task is never dispatched by the five
ticks that follow; only the three-second task is. -/
theorem C1_due_task_next_to_waiting_task_is_not_dispatched :
    TaskHeap.Less [waitingTask, dueTask] 1 0 = false ∧
    handleTasks [waitingTask, dueTask] =
      ([{ waitingTask with circle := 0 }, { dueTask with circle := -1 }], []) ∧
    (addTask smallWheel dueTask "").bind (fun r => addTask r.1 waitingTask "") =
      some ({ smallWheel with slots := [[], [waitingTask, dueTask]],
                              taskMap := [("waiting", 1), ("due", 1)] }, (true, "waiting")) ∧
    runLog [Request.add dueTask "", Request.add waitingTask "", Request.tick, Request.tick,
        Request.tick, Request.tick, Request.tick] smallWheel =
      [{ waitingTask with circle := 0 }] := by
  decide

theorem testWheelMinute_only : OnlyTask testWheelMinute 0 { testTask2 with circle := 1 } := by
  refine ⟨rfl, ?_⟩
  intro q hq h0 h1
  have h2 : q < 60 := h1
  interval_cases q
  · exact absurd rfl hq
  all_goals rfl

/-- C2: the wheel of the test (`interval = 1s`, 60 slots) with only the
60-second task: `AddTask` accepts it, `addTask` stores it in slot 0 with
`circle = 1`, and it is dispatched on tick 120 and on no other tick; ticks 60
and 61 dispatch nothing. -/
theorem C2_minute_task_fires_on_tick_120 :
    NewTimeWheel maxSlots64 Second 60 = some testWheel ∧
    AddTask testWheel (60 * Second) 1 2 "task-2" = (("task-2", true), some testTask2) ∧
    addTask testWheel testTask2 "" = some (testWheelMinute, (true, "task-2")) ∧
    firedOnTick testWheelMinute 59 = some [] ∧
    firedOnTick testWheelMinute 60 = some [] ∧
    firedOnTick testWheelMinute 119 = some [testTask2] ∧
    ∀ k : Nat, firedOnTick testWheelMinute k = some (if k + 1 = 120 then [testTask2] else []) := by
  refine ⟨by decide, by decide, by decide, by decide, by decide, by decide, ?_⟩
  intro k
  rw [only_task_fires k testWheelMinute 0 _ (by decide) (by decide) (by decide)
    testWheelMinute_only (by decide)]
  have hg : gap testWheelMinute 0 +
      ({ testTask2 with circle := 1 } : Task).circle * testWheelMinute.slotNum = 120 := by
    decide
  rw [hg]
  by_cases hk : k + 1 = 120
  · rw [if_pos hk, if_pos (by omega)]
    rfl
  · rw [if_neg hk, if_neg (by omega)]

/-- C8: with `interval = 1s` and `delay = 1.5s` the tick count `getTaskPos`
derives is `1`, while the ceiling of the exact quotient is `2`; one tick is
shorter than the delay. -/
theorem C8_tick_count_drops_fraction_of_second :
    smallWheel.interval ≤ (1500000000 : Duration) ∧
    getTaskTicks smallWheel { dueTask with delay := 1500000000 } = some 1 ∧
    ⌈((1500000000 : Int) : ℚ) / ((smallWheel.interval : Int) : ℚ)⌉ = 2 ∧
    1 * smallWheel.interval < (1500000000 : Duration) := by
  refine ⟨by decide, by decide, ?_, by decide⟩
  rw [Int.ceil_eq_iff]
  have : smallWheel.interval = 1000000000 := rfl
  rw [this]
  constructor <;> norm_num

/-- C9: on the wheel `NewTimeWheel(1500ms, 2)` returns (two slots,
`curPos = 0`) the task with `delay = 3s = 2 * interval` gets three ticks from
the second counts `3` and `1`, and `addTask` stores it in slot 1 with
`circle = 1`, not in the slot at `curPos`; the first two ticks dispatch
nothing and the third dispatches it. -/
theorem C9_full_turn_delay_is_stored_off_curPos :
    NewTimeWheel maxSlots64 1500000000 2 = some { oddWheel with isRun := false } ∧
    oddWheel.curPos = 0 ∧
    oddTask.delay = oddWheel.slotNum * oddWheel.interval ∧
    intSeconds oddTask.delay = 3 ∧ intSeconds oddWheel.interval = 1 ∧
    getTaskTicks oddWheel oddTask = some 3 ∧
    getTaskPos oddWheel oddTask = some (1, 1) ∧
    getTaskPos oddWheel oddTask ≠ some (1, oddWheel.curPos) ∧
    (addTask oddWheel oddTask "").map (fun r => r.1.slots) =
      some [[], [{ oddTask with circle := 1 }]] ∧
    runLog [Request.add oddTask "", Request.tick, Request.tick] oddWheel = [] ∧
    runLog [Request.add oddTask "", Request.tick, Request.tick, Request.tick] oddWheel =
      [{ oddTask with circle := 0 }] := by
  decide

/-! ## Witnesses -/

/-- The wheel `testWheelAt20` is the wheel of the test after the three adds and
twenty ticks. -/
theorem testWheelAt20_reached :
    ((addTask testWheel testTask1 "").bind fun r1 =>
      (addTask r1.1 testTask2 "").bind fun r2 =>
        (addTask r2.1 testTask3 "").bind fun r3 => tickN 20 r3.1) = some testWheelAt20 := by
  decide


theorem C3_deleted_task_is_never_dispatched_witness :
    DistinctIds testWheelAt20 ∧ mapGet testWheelAt20.taskMap "task-3" = some 30 ∧
    slotAt testWheelAt20.slots 30 = some [testTask3] ∧
    ∃ tw1, delTask testWheelAt20 "task-3" = some tw1 ∧
      ∀ u ∈ runLog (List.replicate 120 Request.tick) tw1, u.id ≠ "task-3" :=
  ⟨by decide, by decide, by decide,
    (C3_deleted_task_is_never_dispatched testWheelAt20 "task-3" 30 [testTask3] testTask3
      (by decide) (by decide) (by decide) (by decide) (by decide)).imp
      (fun _ hx => ⟨hx.1, hx.2 (List.replicate 120 Request.tick) (by
        intro r hr
        rw [List.eq_of_mem_replicate hr]
        decide)⟩)⟩

theorem C5_AddTask_stores_the_task_witness :
    WellFormed testWheel ∧ Second ≤ testWheel.interval ∧ testWheel.interval ≤ 5 * Second ∧
    ∃ tw1, addTask testWheel testTask1 "" = some (tw1, (true, "task-1")) ∧
      mapGet tw1.taskMap "task-1" = some 5 := by
  refine ⟨by decide, by decide, by decide, ?_⟩
  obtain ⟨ticks, h, h1, tw1, _, _, hgt, _, _, _, _, _, _, _, hadd, _, _, _, _, _, hmap, _⟩ :=
    C5_AddTask_stores_the_task testWheel (5 * Second) 1 1 "task-1" "" (by decide) (by decide)
      (by decide) (by decide)
  have e : getTaskTicks testWheel
      { id := "task-1", handler := 1, data := 1, circle := 0, delay := 5 * Second } = some 5 := by
    decide
  rw [e] at hgt
  have ht : ticks = 5 := (Option.some.inj hgt).symm
  subst ht
  exact ⟨tw1, hadd, hmap⟩

theorem C6_delTask_removes_exactly_the_task_witness :
    DistinctIds wheel3 ∧ mapGet wheel3.taskMap "due" = some 1 ∧
    slotAt wheel3.slots 1 = some [waitingTask, dueTask] ∧
    ∃ tw1 h1, delTask wheel3 "due" = some tw1 ∧ slotAt tw1.slots 1 = some h1 ∧
      (dueTask :: h1).Perm [waitingTask, dueTask] ∧ mapGet tw1.taskMap "due" = none ∧
      tw1.curPos = wheel3.curPos := by
  refine ⟨by decide, by decide, by decide, ?_⟩
  obtain ⟨tw1, h1, hdel, hs, hp, _, _, _, hm, _, hc, _⟩ :=
    C6_delTask_removes_exactly_the_task wheel3 "due" 1 [waitingTask, dueTask] dueTask
      (by decide) (by decide) (by decide) (by decide) (by decide)
  exact ⟨tw1, h1, hdel, hs, hp, hm, hc⟩

theorem C7_delete_absent_id_changes_nothing_witness :
    MapInRange wheel3 ∧ NoTaskWithId wheel3 "gone" ∧ delTask wheel3 "gone" = some wheel3 :=
  ⟨by decide, by decide,
    (C7_delete_absent_id_changes_nothing wheel3 "gone" (by decide) (Or.inr (by decide))).2.2
      (by decide)⟩

theorem wheel3Single_only : OnlyTask wheel3Single 1 { waitingTask with circle := 2 } := by
  refine ⟨rfl, ?_⟩
  intro q hq h0 h1
  have h2 : q < 3 := h1
  interval_cases q
  · rfl
  · exact absurd rfl hq
  · rfl

theorem C10_only_task_fires_on_visit_after_circle_witness :
    WellFormed wheel3Single ∧ OnlyTask wheel3Single 1 { waitingTask with circle := 2 } ∧
    firedOnTick wheel3Single 6 = some [{ waitingTask with circle := 0 }] :=
  ⟨by decide, wheel3Single_only,
    ((C10_only_task_fires_on_visit_after_circle wheel3Single 1 { waitingTask with circle := 2 }
      (by decide) (by decide) (by decide) wheel3Single_only (by decide)).2.2.1 6).trans
      (by decide)⟩

/-! ## One tick, construction -/

/-- C12: on a well-formed wheel (`slotNum ≥ 1`) one tick, `tickHandle` with the
`handleTasks` it starts, does not panic, moves the pointer to `nextPos` and
changes the slot there only: every other slot has the tasks and the circles it
had, and `taskMap`, `slotNum` and `interval` are unchanged. -/
theorem C12_tick_changes_only_the_slot_at_the_pointer (tw : TimeWheel) (hw : WellFormed tw) :
    ∃ tw1 fired, tickHandle tw = some (tw1, fired) ∧
      tw1.curPos = nextPos tw ∧
      (∀ q, q ≠ tw1.curPos → slotAt tw1.slots q = slotAt tw.slots q) ∧
      tw1.slots.length = tw.slots.length ∧
      tw1.taskMap = tw.taskMap ∧ tw1.slotNum = tw.slotNum ∧ tw1.interval = tw.interval := by
  obtain ⟨h, _, ht, _⟩ := tickHandle_wf tw hw
  refine ⟨_, _, ht, rfl, ?_, setSlot_length _ _ _, rfl, rfl, rfl⟩
  intro q hq
  exact slotAt_setSlot_ne _ _ _ _ (Ne.symm hq)

theorem C12_tick_changes_only_the_slot_at_the_pointer_witness :
    WellFormed wheel3 ∧
    ∃ tw1 fired, tickHandle wheel3 = some (tw1, fired) ∧ tw1.curPos = 1 ∧
      slotAt tw1.slots 0 = slotAt wheel3.slots 0 ∧ slotAt tw1.slots 2 = slotAt wheel3.slots 2 := by
  refine ⟨by decide, ?_⟩
  obtain ⟨tw1, fired, ht, hc, hs, _⟩ :=
    C12_tick_changes_only_the_slot_at_the_pointer wheel3 (by decide)
  have hc1 : tw1.curPos = 1 := hc
  exact ⟨tw1, fired, ht, hc1, hs 0 (by rw [hc1]; decide), hs 2 (by rw [hc1]; decide)⟩

theorem heap.Init_nil : heap.Init [] = [] := rfl

/-- C15, as stated, fails in both halves: for `slotNum = 0` `NewTimeWheel` does
not panic, it returns a wheel without slots; and for `slotNum = 2^46 ≥ 1` and
the positive interval of one second it panics on a 64-bit machine, where `make`
refuses the length. -/
theorem C15_counterexample_zero_slots_and_too_many_slots :
    NewTimeWheel maxSlots64 Second 0 =
      some { interval := Second, slotNum := 0, slots := [], curPos := 0, taskMap := [],
             isRun := false } ∧
    (1 : Int) ≤ 70368744177664 ∧ (0 : Int) < Second ∧
    NewTimeWheel maxSlots64 Second 70368744177664 = none := by
  decide

/-- C15 (amended): with `maxLen` the longest slice of slots the machine can
make, `NewTimeWheel` panics for every `slotNum < 0` and for every
`slotNum > maxLen`; for every `slotNum` from `0` to `maxLen` and every positive
interval it returns a wheel that is not running, has exactly `slotNum` slots,
all empty, `curPos = 0` and an empty `taskMap`. -/
theorem C15_NewTimeWheel_result (maxLen : Int) (interval : Duration) (slotNum : Int) :
    (slotNum < 0 → NewTimeWheel maxLen interval slotNum = none) ∧
    (maxLen < slotNum → NewTimeWheel maxLen interval slotNum = none) ∧
    (0 ≤ slotNum → slotNum ≤ maxLen → 0 < interval →
      ∃ tw, NewTimeWheel maxLen interval slotNum = some tw ∧
        tw.isRun = false ∧ (tw.slots.length : Int) = slotNum ∧ (∀ h ∈ tw.slots, h = []) ∧
        tw.curPos = 0 ∧ tw.taskMap = [] ∧ tw.slotNum = slotNum ∧ tw.interval = interval) := by
  refine ⟨?_, ?_, ?_⟩
  · intro h
    unfold NewTimeWheel
    rw [if_pos (Or.inl h)]
  · intro h
    unfold NewTimeWheel
    rw [if_pos (Or.inr h)]
  · intro h hM _
    unfold NewTimeWheel
    rw [if_neg (by omega)]
    refine ⟨_, rfl, rfl, ?_, ?_, rfl, rfl, rfl, rfl⟩
    · simp only [initSlots, List.length_replicate]
      omega
    · intro g hg
      simp only [initSlots] at hg
      rw [List.eq_of_mem_replicate hg]
      rfl

theorem C15_NewTimeWheel_result_witness :
    (-1 : Int) < 0 ∧ NewTimeWheel maxSlots64 Second (-1) = none ∧
    maxSlots64 < 70368744177664 ∧ NewTimeWheel maxSlots64 Second 70368744177664 = none ∧
    (0 : Int) ≤ 60 ∧ 60 ≤ maxSlots64 ∧ (0 : Int) < Second ∧
    ∃ tw, NewTimeWheel maxSlots64 Second 60 = some tw ∧ tw.isRun = false ∧
      (tw.slots.length : Int) = 60 :=
  ⟨by decide, (C15_NewTimeWheel_result maxSlots64 Second (-1)).1 (by decide), by decide,
    (C15_NewTimeWheel_result maxSlots64 Second 70368744177664).2.1 (by decide),
    by decide, by decide, by decide,
    ((C15_NewTimeWheel_result maxSlots64 Second 60).2.2 (by decide) (by decide) (by decide)).imp
      (fun _ hx => ⟨hx.1, hx.2.1, hx.2.2.1⟩)⟩

/-! ## Claims refuted by evaluation -/

/-- C11: on the wheel of the test the 5-second task is dispatched by the fifth
tick and leaves its slot, but `taskMap` still maps its id to slot 5: the entry
is not removed, and no slot stores a task with that id. -/
theorem C11_dispatched_task_keeps_its_taskMap_entry :
    runLog (Request.add testTask1 "" :: List.replicate 5 Request.tick) testWheel = [testTask1] ∧
    ∃ tw, runState (Request.add testTask1 "" :: List.replicate 5 Request.tick) testWheel = some tw ∧
      NoTaskWithId tw "task-1" ∧ mapGet tw.taskMap "task-1" = some 5 ∧
      slotAt tw.slots 5 = some [] :=
  ⟨by decide, { testWheel with curPos := 5, taskMap := [("task-1", 5)] },
    by decide, by decide, by decide, by decide⟩

/-- C14: from `NewTimeWheel(1s, 2)`, after the adds of a 1-second and a
3-second task and one tick, slot 1 stores the 1-second task with
`circle = -1`. -/
theorem C14_stored_circle_becomes_negative :
    NewTimeWheel maxSlots64 Second 2 = some { smallWheel with isRun := false } ∧
    runState [Request.add dueTask "", Request.add waitingTask "", Request.tick]
        { smallWheel with isRun := false } =
      some { smallWheel with
               isRun := false, curPos := 1,
               slots := [[], [{ waitingTask with circle := 0 }, { dueTask with circle := -1 }]],
               taskMap := [("waiting", 1), ("due", 1)] } := by
  decide

/-- C13: after `Start` on the wheel of the test the loop receives a stop: the
goroutine stays in the loop with `isRun` still set, it serves the add request
that arrives afterwards (the task is stored in slot 5), a further `Stop` still
sends, and a following `Start` is a no-op. -/
theorem C13_stop_does_not_halt_the_loop :
    Start testWheel =
      StartResult.started { tw := { testWheel with isRun := true }, tickerStopped := false } ∧
    runIter { tw := { testWheel with isRun := true }, tickerStopped := false } Event.stop =
      some ({ tw := { testWheel with isRun := true }, tickerStopped := true }, []) ∧
    (run [Event.stop, Event.request (Request.add testTask1 "")]
        { tw := { testWheel with isRun := true }, tickerStopped := false }).map
      (fun l => (l.tw.isRun, slotAt l.tw.slots 5, mapGet l.tw.taskMap "task-1")) =
      some (true, some [testTask1], some 5) ∧
    Stop { testWheel with isRun := true } = true ∧
    Start { testWheel with isRun := true } = StartResult.noop := by
  decide

/-! ## Every request is served without a panic -/

/-- With an interval of at least one second `getTaskPos` returns a slot index
inside the wheel for every delay `≥ 0`. -/
theorem getTaskPos_range (tw : TimeWheel) (task : Task) (hw : WellFormed tw)
    (hint : 1 ≤ intSeconds tw.interval) (hd : 0 ≤ task.delay) :
    ∃ c p, getTaskPos tw task = some (c, p) ∧ 0 ≤ p ∧ p < tw.slotNum := by
  obtain ⟨hN, _, hc0, hc1⟩ := hw
  have hds := intSeconds_nonneg task.delay hd
  have ht := ceilQuot_nonneg (intSeconds task.delay) (intSeconds tw.interval) hds
    (lt_of_lt_of_le (by decide) hint)
  refine ⟨Int.tdiv (ceilQuot (intSeconds task.delay) (intSeconds tw.interval)) tw.slotNum,
    Int.tmod (tw.curPos + ceilQuot (intSeconds task.delay) (intSeconds tw.interval)) tw.slotNum,
    ?_, Int.tmod_nonneg _ (add_nonneg hc0 ht), Int.tmod_lt_of_pos _ (by omega)⟩
  unfold getTaskPos getTaskTicks
  simp only
  rw [if_neg (by omega)]
  simp only
  rw [if_neg (by omega)]

/-- The wheel `NewTimeWheel` returns for a `slotNum ≥ 1` that the machine can
allocate. -/
theorem NewTimeWheel_wf (maxLen : Int) (interval : Duration) (slotNum : Int) (hN : 1 ≤ slotNum)
    (hM : slotNum ≤ maxLen) :
    ∃ tw0, NewTimeWheel maxLen interval slotNum = some tw0 ∧ WellFormed tw0 ∧ MapInRange tw0 ∧
      tw0.curPos = 0 ∧ tw0.slotNum = slotNum ∧ tw0.interval = interval ∧
      (∀ h ∈ tw0.slots, h = []) ∧ tw0.taskMap = [] := by
  unfold NewTimeWheel
  rw [if_neg (by omega)]
  refine ⟨_, rfl, ⟨hN, ?_, le_refl _, by simp only; omega⟩, ?_, rfl, rfl, rfl, ?_, rfl⟩
  · simp only [initSlots, List.length_replicate]
    omega
  · intro e he
    simp at he
  · intro g hg
    simp only [initSlots] at hg
    rw [List.eq_of_mem_replicate hg]
    rfl

theorem mapInRange_mapSet (tw : TimeWheel) (slots : List TaskHeap) (k : String) (v : Int)
    (hr : MapInRange tw) (hl : slots.length = tw.slots.length) (hv0 : 0 ≤ v)
    (hv1 : v < (tw.slots.length : Int)) :
    MapInRange { tw with slots := slots, taskMap := mapSet tw.taskMap k v } := by
  intro e he
  simp only [mapSet, mapDelete, List.mem_cons, List.mem_filter] at he
  simp only [hl]
  rcases he with he | he
  · rw [he]
    exact ⟨hv0, hv1⟩
  · exact hr e he.1

theorem mapInRange_mapDelete (tw : TimeWheel) (slots : List TaskHeap) (k : String)
    (hr : MapInRange tw) (hl : slots.length = tw.slots.length) :
    MapInRange { tw with slots := slots, taskMap := mapDelete tw.taskMap k } := by
  intro e he
  simp only [mapDelete, List.mem_filter] at he
  simp only [hl]
  exact hr e he.1

/-- The pointer a request leaves behind. -/
theorem step_shape (tw tw1 : TimeWheel) (r : Request) (fired : List Task) (hw : WellFormed tw)
    (hr : MapInRange tw) (hs : step tw r = some (tw1, fired)) :
    WellFormed tw1 ∧ MapInRange tw1 ∧ tw1.slotNum = tw.slotNum ∧ tw1.interval = tw.interval ∧
      tw1.curPos = (if r = Request.tick then nextPos tw else tw.curPos) := by
  cases r with
  | tick =>
    obtain ⟨h, _, ht, hw1⟩ := tickHandle_wf tw hw
    simp only [step] at hs
    rw [ht] at hs
    simp only [Option.some.injEq, Prod.mk.injEq] at hs
    obtain ⟨rfl, rfl⟩ := hs
    refine ⟨hw1, ?_, rfl, rfl, by simp⟩
    intro e he
    simp only [setSlot_length]
    exact hr e he
  | add task uuid =>
    simp only [step, addTask] at hs
    split at hs
    · simp only [Option.map_some', Option.some.injEq, Prod.mk.injEq] at hs
      obtain ⟨rfl, rfl⟩ := hs
      exact ⟨hw, hr, rfl, rfl, by simp⟩
    · cases hg : getTaskPos tw task with
      | none => simp [hg] at hs
      | some cp =>
        obtain ⟨circ, pos⟩ := cp
        simp only [hg] at hs
        cases hsl : slotAt tw.slots pos with
        | none => simp [hsl] at hs
        | some h =>
          simp only [hsl, Option.map_some', Option.some.injEq, Prod.mk.injEq] at hs
          obtain ⟨rfl, rfl⟩ := hs
          have rp := slotAt_range hsl
          refine ⟨?_, mapInRange_mapSet tw _ _ _ hr (setSlot_length _ _ _) rp.1 rp.2, rfl, rfl,
            by simp⟩
          exact ⟨hw.1, by simpa [setSlot_length] using hw.2.1, hw.2.2.1, hw.2.2.2⟩
  | del delId =>
    simp only [step] at hs
    cases hdl : delTask tw delId with
    | none => simp [hdl] at hs
    | some w =>
      simp only [hdl, Option.map_some', Option.some.injEq, Prod.mk.injEq] at hs
      obtain ⟨rfl, rfl⟩ := hs
      unfold delTask at hdl
      split at hdl
      · cases hdl
        exact ⟨hw, hr, rfl, rfl, by simp⟩
      · split at hdl
        · cases hdl
        · split at hdl
          · cases hdl
            exact ⟨hw, hr, rfl, rfl, by simp⟩
          · split at hdl
            · cases hdl
              exact ⟨hw, hr, rfl, rfl, by simp⟩
            · split at hdl
              · cases hdl
              · cases hdl
                refine ⟨?_, mapInRange_mapDelete tw _ _ hr (setSlot_length _ _ _), rfl, rfl,
                  by simp⟩
                exact ⟨hw.1, by simpa [setSlot_length] using hw.2.1, hw.2.2.1, hw.2.2.2⟩

/-- With an interval of at least one second no request makes the loop panic. -/
theorem step_total (tw : TimeWheel) (r : Request) (hw : WellFormed tw) (hr : MapInRange tw)
    (hint : 1 ≤ intSeconds tw.interval) : ∃ x, step tw r = some x := by
  cases r with
  | tick =>
    obtain ⟨h, _, ht, _⟩ := tickHandle_wf tw hw
    exact ⟨_, ht⟩
  | add task uuid =>
    simp only [step]
    by_cases hd : task.delay ≤ 0
    · refine ⟨(tw, []), ?_⟩
      unfold addTask
      rw [if_pos hd]
      rfl
    · obtain ⟨c, p, hg, hp0, hp1⟩ := getTaskPos_range tw task hw hint (le_of_lt (not_le.mp hd))
      obtain ⟨h, hsl⟩ := slotAt_isSome tw.slots p hp0 (by have := hw.2.1; omega)
      rw [addTask_placed tw task uuid c p h (not_le.mp hd) hg hsl]
      exact ⟨_, rfl⟩
  | del delId =>
    simp only [step]
    suffices hx : ∃ w, delTask tw delId = some w by
      obtain ⟨w, hw2⟩ := hx
      rw [hw2]
      exact ⟨_, rfl⟩
    unfold delTask
    cases hm : mapGet tw.taskMap delId with
    | none => exact ⟨_, rfl⟩
    | some pos =>
      have hin := hr _ (mapGet_mem _ _ _ hm)
      obtain ⟨h, hsl⟩ := slotAt_isSome tw.slots pos hin.1 hin.2
      simp only [hsl]
      split
      · exact ⟨_, rfl⟩
      · cases hf : findTask h delId with
        | none => exact ⟨_, rfl⟩
        | some idx =>
          obtain ⟨x, hx, _⟩ := findTask_some h delId idx hf
          obtain ⟨y, h1, hrem, _, _⟩ :=
            heap.Remove_spec h idx (List.getElem?_eq_some_iff.mp hx).1
          simp only [hrem]
          exact ⟨_, rfl⟩

theorem nextPos_emod (tw : TimeWheel) (hw : WellFormed tw) (k : Int) :
    (nextPos tw + k) % tw.slotNum = (tw.curPos + (k + 1)) % tw.slotNum := by
  obtain ⟨_, _, hc0, hc1⟩ := hw
  unfold nextPos
  split
  · have e : tw.curPos + (k + 1) = 0 + k + 1 * tw.slotNum := by omega
    rw [e, Int.add_mul_emod_self]
  · congr 1
    omega

/-- The pointer after the requests: `(curPos + ticks) mod slotNum`. -/
theorem runState_curPos : ∀ (reqs : List Request) (tw tw1 : TimeWheel), WellFormed tw →
    MapInRange tw → runState reqs tw = some tw1 →
    WellFormed tw1 ∧ MapInRange tw1 ∧ tw1.slotNum = tw.slotNum ∧ tw1.interval = tw.interval ∧
      tw1.curPos = (tw.curPos + tickCount reqs) % tw.slotNum
  | [], tw, tw1, hw, hr, hs => by
    simp only [runState, Option.some.injEq] at hs
    subst hs
    refine ⟨hw, hr, rfl, rfl, ?_⟩
    simp only [tickCount, Nat.cast_zero, add_zero]
    exact (Int.emod_eq_of_lt hw.2.2.1 hw.2.2.2).symm
  | r :: rest, tw, tw1, hw, hr, hs => by
    unfold runState at hs
    cases hst : step tw r with
    | none => simp [hst] at hs
    | some x =>
      obtain ⟨tw2, fired⟩ := x
      simp only [hst] at hs
      obtain ⟨hw2, hr2, hN, hI, hc⟩ := step_shape tw tw2 r fired hw hr hst
      obtain ⟨hw3, hr3, hN3, hI3, hc3⟩ := runState_curPos rest tw2 tw1 hw2 hr2 hs
      refine ⟨hw3, hr3, hN3.trans hN, hI3.trans hI, ?_⟩
      rw [hc3, hN, hc]
      cases r with
      | tick =>
        simp only [if_true, tickCount]
        rw [nextPos_emod tw hw]
        push_cast
        rfl
      | add task uuid => simp [tickCount]
      | del delId => simp [tickCount]

theorem runState_total : ∀ (reqs : List Request) (tw : TimeWheel), WellFormed tw →
    MapInRange tw → 1 ≤ intSeconds tw.interval → ∃ tw1, runState reqs tw = some tw1
  | [], tw, _, _, _ => ⟨tw, rfl⟩
  | r :: rest, tw, hw, hr, hint => by
    obtain ⟨x, hx⟩ := step_total tw r hw hr hint
    obtain ⟨hw2, hr2, _, hI, _⟩ := step_shape tw x.1 r x.2 hw hr hx
    obtain ⟨tw1, h1⟩ := runState_total rest x.1 hw2 hr2 (by rw [hI]; exact hint)
    refine ⟨tw1, ?_⟩
    unfold runState
    rw [hx]
    exact h1

/-- C17: a wheel made by `NewTimeWheel` with `slotNum ≥ 1` (a number of slots
the machine can allocate, so that the wheel is made): whenever the loop
has served a sequence of requests with `k` ticks, `curPos = k mod slotNum` and
`0 ≤ curPos < slotNum`; with an interval of at least one second the loop serves
every sequence without a panic (no slot access of `tickHandle`, `addTask` or
`delTask` is out of range), and for every delay `≥ interval` the slot index
that `getTaskPos` computes on the wheel reached is in `[0, slotNum)`. -/
theorem C17_pointer_and_slot_index_stay_in_range (maxLen : Int) (interval : Duration)
    (slotNum : Int) (reqs : List Request) (hN : 1 ≤ slotNum) (hM : slotNum ≤ maxLen) :
    ∃ tw0, NewTimeWheel maxLen interval slotNum = some tw0 ∧
      (∀ tw, runState reqs tw0 = some tw →
        tw.curPos = (tickCount reqs : Int) % slotNum ∧ 0 ≤ tw.curPos ∧ tw.curPos < slotNum) ∧
      (Second ≤ interval → ∃ tw, runState reqs tw0 = some tw ∧
        ∀ task : Task, interval ≤ task.delay →
          ∃ c p, getTaskPos tw task = some (c, p) ∧ 0 ≤ p ∧ p < slotNum ∧
            ∃ h, slotAt tw.slots p = some h) := by
  obtain ⟨tw0, hnew, hw0, hr0, hc00, hN0, hI0, _, _⟩ := NewTimeWheel_wf maxLen interval slotNum hN hM
  refine ⟨tw0, hnew, ?_, ?_⟩
  · intro tw hs
    obtain ⟨hw1, _, hN1, _, hc⟩ := runState_curPos reqs _ tw hw0 hr0 hs
    rw [hc00, hN0, zero_add] at hc
    refine ⟨hc, ?_, ?_⟩
    · exact hw1.2.2.1
    · have := hw1.2.2.2
      rw [hN1, hN0] at this
      exact this
  · intro hint
    have hi1 : 1 ≤ intSeconds interval := intSeconds_pos _ hint
    obtain ⟨tw, hs⟩ := runState_total reqs _ hw0 hr0 (by rw [hI0]; exact hi1)
    obtain ⟨hw1, _, hN1, hI1, _⟩ := runState_curPos reqs _ tw hw0 hr0 hs
    refine ⟨tw, hs, ?_⟩
    intro task hd
    have hd0 : (0 : Int) ≤ task.delay :=
      le_trans (le_trans (by decide : (0 : Int) ≤ Second) hint) hd
    obtain ⟨c, p, hg, hp0, hp1⟩ :=
      getTaskPos_range tw task hw1 (by rw [hI1, hI0]; exact hi1) hd0
    have hN2 : tw.slotNum = slotNum := hN1.trans hN0
    refine ⟨c, p, hg, hp0, by omega, ?_⟩
    exact slotAt_isSome tw.slots p hp0 (by have := hw1.2.1; omega)

theorem C17_pointer_and_slot_index_stay_in_range_witness :
    (1 : Int) ≤ 60 ∧ 60 ≤ maxSlots64 ∧
    ∃ tw0, NewTimeWheel maxSlots64 Second 60 = some tw0 ∧
      ∀ tw, runState (Request.add testTask1 "" :: List.replicate 61 Request.tick) tw0 = some tw →
        tw.curPos = 1 :=
  ⟨by decide, by decide,
    (C17_pointer_and_slot_index_stay_in_range maxSlots64 Second 60
      (Request.add testTask1 "" :: List.replicate 61 Request.tick) (by decide) (by decide)).imp
      (fun _ hx => ⟨hx.1, fun tw hs => ((hx.2.1 tw hs).1).trans (by decide)⟩)⟩

/-! ## Counting the tasks that carry an id -/

theorem idCount_perm {l1 l2 : List Task} (hp : l1.Perm l2) (taskId : String) :
    idCount l1 taskId = idCount l2 taskId :=
  List.Perm.countP_eq _ hp

theorem idCount_append (l1 l2 : List Task) (taskId : String) :
    idCount (l1 ++ l2) taskId = idCount l1 taskId + idCount l2 taskId :=
  List.countP_append _ l1 l2

theorem idCount_cons (t : Task) (l : List Task) (taskId : String) :
    idCount (t :: l) taskId = idCount l taskId + if t.id = taskId then 1 else 0 := by
  unfold idCount
  rw [List.countP_cons]
  simp

theorem idCount_nil (taskId : String) : idCount [] taskId = 0 := rfl

theorem idCount_map_decCircle : ∀ (l : List Task) (taskId : String),
    idCount (l.map decCircle) taskId = idCount l taskId
  | [], _ => rfl
  | t :: rest, taskId => by
    rw [List.map_cons, idCount_cons, idCount_cons, idCount_map_decCircle rest taskId,
      decCircle_id]

theorem idCount_eq_count : ∀ (l : List Task) (taskId : String),
    idCount l taskId = (l.map (fun t => t.id)).count taskId
  | [], _ => rfl
  | t :: rest, taskId => by
    rw [idCount_cons, List.map_cons, List.count_cons, idCount_eq_count rest taskId]
    simp

theorem idCount_eq_zero {l : List Task} {taskId : String} (h0 : idCount l taskId = 0) :
    ∀ u ∈ l, u.id ≠ taskId := by
  unfold idCount at h0
  intro u hu e
  exact List.countP_eq_zero.mp h0 u hu (by simp [e])

theorem idCount_pos {l : List Task} {u : Task} (hu : u ∈ l) : 0 < idCount l u.id := by
  unfold idCount
  exact List.countP_pos_iff.mpr ⟨u, hu, by simp⟩

/-- Replacing the slot at an index changes the count of an id by the difference
of the two slots. -/
theorem idCount_flatten_set : ∀ (L : List TaskHeap) (p : Nat) (h g : TaskHeap) (taskId : String),
    L[p]? = some h →
    idCount (L.set p g).flatten taskId + idCount h taskId =
      idCount L.flatten taskId + idCount g taskId
  | [], p, h, g, taskId, e => by simp at e
  | l :: L, 0, h, g, taskId, e => by
    simp only [List.getElem?_cons_zero, Option.some.injEq] at e
    subst e
    simp only [List.set_cons_zero, List.flatten_cons, idCount_append]
    omega
  | l :: L, p + 1, h, g, taskId, e => by
    simp only [List.getElem?_cons_succ] at e
    have ih := idCount_flatten_set L p h g taskId e
    simp only [List.set_cons_succ, List.flatten_cons, idCount_append]
    omega

theorem storedCount_setSlot (tw : TimeWheel) (p : Int) (h g : TaskHeap) (m : List (String × Int))
    (c : Int) (taskId : String) (hs : slotAt tw.slots p = some h) :
    storedCount { tw with slots := setSlot tw.slots p g, taskMap := m, curPos := c } taskId +
        idCount h taskId =
      storedCount tw taskId + idCount g taskId := by
  have rp := slotAt_range hs
  unfold slotAt at hs
  rw [if_neg (by omega)] at hs
  unfold storedCount setSlot
  simp only
  rw [if_neg (by omega)]
  exact idCount_flatten_set tw.slots p.toNat h g taskId hs

/-- One request: the tasks with the id that are stored afterwards and those
dispatched are together at most the ones stored before, plus one when the
request adds the id. -/
theorem step_count (tw tw1 : TimeWheel) (r : Request) (fired : List Task) (taskId : String)
    (hs : step tw r = some (tw1, fired)) :
    storedCount tw1 taskId + idCount fired taskId ≤
      storedCount tw taskId + addedCount [r] taskId := by
  cases r with
  | tick =>
    simp only [step] at hs
    rw [tickHandle_eq] at hs
    cases hsl : slotAt tw.slots (nextPos tw) with
    | none => simp [hsl] at hs
    | some h =>
      simp only [hsl, Option.some.injEq, Prod.mk.injEq] at hs
      obtain ⟨rfl, rfl⟩ := hs
      obtain ⟨rest, he, hp⟩ := handleTasks_spec h
      have h1 := storedCount_setSlot tw (nextPos tw) h (handleTasks h).1 tw.taskMap (nextPos tw)
        taskId hsl
      have h2 := idCount_perm hp taskId
      rw [idCount_append] at h2
      rw [he, idCount_map_decCircle] at h1
      rw [he]
      omega
  | add task uuid =>
    have hadd : addedCount [Request.add task uuid] taskId =
        if storedId task uuid = taskId then 1 else 0 := by
      simp [addedCount, addedId, List.count_cons]
    simp only [step, addTask] at hs
    split at hs
    · simp only [Option.map_some', Option.some.injEq, Prod.mk.injEq] at hs
      obtain ⟨rfl, rfl⟩ := hs
      rw [idCount_nil]
      omega
    · cases hg : getTaskPos tw task with
      | none => simp [hg] at hs
      | some cp =>
        obtain ⟨circ, pos⟩ := cp
        simp only [hg] at hs
        cases hsl : slotAt tw.slots pos with
        | none => simp [hsl] at hs
        | some h =>
          simp only [hsl, Option.map_some', Option.some.injEq, Prod.mk.injEq] at hs
          obtain ⟨rfl, rfl⟩ := hs
          have h1 := storedCount_setSlot tw pos h
            (heap.Push h { task with id := storedId task uuid, circle := circ })
            (mapSet tw.taskMap (storedId task uuid) pos) tw.curPos taskId hsl
          have h2 := idCount_perm (heap.Push_perm h
            { task with id := storedId task uuid, circle := circ }) taskId
          rw [idCount_cons] at h2
          simp only at h2
          rw [idCount_nil, hadd]
          have h3 : storedCount
              { tw with slots := setSlot tw.slots pos
                          (heap.Push h { task with id := storedId task uuid, circle := circ }),
                        taskMap := mapSet tw.taskMap (storedId task uuid) pos } taskId +
                idCount h taskId =
              storedCount tw taskId +
                idCount (heap.Push h { task with id := storedId task uuid, circle := circ })
                  taskId := h1
          unfold storedId at h2 h3 ⊢
          omega
  | del delId =>
    have hadd : addedCount [Request.del delId] taskId = 0 := by
      simp [addedCount, addedId]
    simp only [step] at hs
    cases hdl : delTask tw delId with
    | none => simp [hdl] at hs
    | some w =>
      simp only [hdl, Option.map_some', Option.some.injEq, Prod.mk.injEq] at hs
      obtain ⟨rfl, rfl⟩ := hs
      rw [idCount_nil, hadd]
      unfold delTask at hdl
      cases hm : mapGet tw.taskMap delId with
      | none =>
        simp only [hm, Option.some.injEq] at hdl
        subst hdl
        omega
      | some pos =>
        simp only [hm] at hdl
        cases hsl : slotAt tw.slots pos with
        | none => simp [hsl] at hdl
        | some h =>
          simp only [hsl] at hdl
          by_cases hlen : h.length ≤ 0
          · rw [if_pos hlen] at hdl
            cases hdl
            omega
          · rw [if_neg hlen] at hdl
            cases hf : findTask h delId with
            | none =>
              simp only [hf, Option.some.injEq] at hdl
              subst hdl
              omega
            | some idx =>
              simp only [hf] at hdl
              cases hrem : heap.Remove h idx with
              | none => simp [hrem] at hdl
              | some rr =>
                simp only [hrem, Option.some.injEq] at hdl
                subst hdl
                have hp := heap.Remove_perm (show heap.Remove _ _ = some (rr.1, rr.2) from hrem)
                have h1 := storedCount_setSlot tw pos h rr.2 (mapDelete tw.taskMap delId)
                  tw.curPos taskId hsl
                have h2 := idCount_perm hp taskId
                rw [idCount_cons] at h2
                have h3 : storedCount
                    { tw with slots := setSlot tw.slots pos rr.2,
                              taskMap := mapDelete tw.taskMap delId } taskId +
                      idCount h taskId =
                    storedCount tw taskId + idCount rr.2 taskId := h1
                omega

theorem addedCount_cons (r : Request) (rest : List Request) (taskId : String) :
    addedCount (r :: rest) taskId = addedCount [r] taskId + addedCount rest taskId := by
  unfold addedCount
  rw [← List.count_append, ← List.filterMap_append]
  rfl

theorem addedCount_append (l1 l2 : List Request) (taskId : String) :
    addedCount (l1 ++ l2) taskId = addedCount l1 taskId + addedCount l2 taskId := by
  unfold addedCount
  rw [List.filterMap_append, List.count_append]

/-- Over a whole run the dispatches of an id are at most the tasks with the id
stored at the start plus the add requests that bring it. -/
theorem runLog_count : ∀ (reqs : List Request) (tw : TimeWheel) (taskId : String),
    idCount (runLog reqs tw) taskId ≤ storedCount tw taskId + addedCount reqs taskId
  | [], tw, taskId => by simp [runLog, idCount_nil]
  | r :: rest, tw, taskId => by
    unfold runLog
    cases hs : step tw r with
    | none => simp [idCount_nil]
    | some x =>
      obtain ⟨tw1, fired⟩ := x
      simp only
      have h1 := step_count tw tw1 r fired taskId hs
      have h2 := runLog_count rest tw1 taskId
      rw [idCount_append, addedCount_cons]
      omega

theorem runState_count : ∀ (reqs : List Request) (tw tw1 : TimeWheel) (taskId : String),
    runState reqs tw = some tw1 →
    storedCount tw1 taskId ≤ storedCount tw taskId + addedCount reqs taskId
  | [], tw, tw1, taskId, hs => by
    simp only [runState, Option.some.injEq] at hs
    subst hs
    omega
  | r :: rest, tw, tw1, taskId, hs => by
    unfold runState at hs
    cases hst : step tw r with
    | none => simp [hst] at hs
    | some x =>
      simp only [hst] at hs
      have h1 := step_count tw x.1 r x.2 taskId hst
      have h2 := runState_count rest x.1 tw1 taskId hs
      rw [addedCount_cons]
      omega

theorem storedCount_new (maxLen : Int) (interval : Duration) (slotNum : Int) (tw0 : TimeWheel)
    (taskId : String) (hn : NewTimeWheel maxLen interval slotNum = some tw0) :
    storedCount tw0 taskId = 0 := by
  unfold NewTimeWheel at hn
  split at hn
  · cases hn
  · simp only [Option.some.injEq] at hn
    subst hn
    unfold storedCount idCount
    rw [List.countP_eq_zero]
    intro u hu
    simp only [initSlots, List.mem_flatten] at hu
    obtain ⟨l, hl, hul⟩ := hu
    rw [List.eq_of_mem_replicate hl] at hul
    exact absurd hul (by simp [heap.Init_nil])

/-- C19: from the wheel `NewTimeWheel` returns, over every sequence of add,
delete and tick requests whose adds bring pairwise distinct ids, no id is
dispatched twice; and when a tick of the sequence dispatches a task, no slot
stores a task with its id afterwards and the requests that follow never
dispatch that id again. -/
theorem C19_each_task_is_dispatched_at_most_once (maxLen : Int) (interval : Duration)
    (slotNum : Int) (tw0 : TimeWheel) (reqs : List Request)
    (hn : NewTimeWheel maxLen interval slotNum = some tw0)
    (hids : (reqs.filterMap addedId).Nodup) :
    ((runLog reqs tw0).map (fun t => t.id)).Nodup ∧
    ∀ (before after : List Request) (tw tw1 : TimeWheel) (fired : List Task),
      reqs = before ++ Request.tick :: after → runState before tw0 = some tw →
      tickHandle tw = some (tw1, fired) →
      ∀ u ∈ fired, NoTaskWithId tw1 u.id ∧ ∀ v ∈ runLog after tw1, v.id ≠ u.id := by
  have h0 := fun i => storedCount_new maxLen interval slotNum tw0 i hn
  have hle : ∀ i, addedCount reqs i ≤ 1 := fun i => List.nodup_iff_count_le_one.mp hids i
  constructor
  · rw [List.nodup_iff_count_le_one]
    intro i
    rw [← idCount_eq_count]
    have := runLog_count reqs tw0 i
    have := h0 i
    have := hle i
    omega
  · intro before after tw tw1 fired hreq hrs ht u hu
    have h1 := runState_count before tw0 tw u.id hrs
    have h2 := step_count tw tw1 Request.tick fired u.id ht
    have h3 : addedCount [Request.tick] u.id = 0 := by simp [addedCount, addedId]
    have h4 := hle u.id
    rw [hreq, addedCount_append, addedCount_cons, h3] at h4
    have h5 := idCount_pos hu
    have h6 := h0 u.id
    have h7 := runLog_count after tw1 u.id
    constructor
    · intro g hg v hv
      have hz : storedCount tw1 u.id = 0 := by omega
      exact idCount_eq_zero hz v (List.mem_flatten.mpr ⟨g, hg, hv⟩)
    · have hz : idCount (runLog after tw1) u.id = 0 := by omega
      exact idCount_eq_zero hz

theorem C19_each_task_is_dispatched_at_most_once_witness :
    NewTimeWheel maxSlots64 Second 2 = some { smallWheel with isRun := false } ∧
    ([Request.add dueTask "", Request.add waitingTask "", Request.tick, Request.tick,
        Request.tick, Request.tick, Request.tick].filterMap addedId).Nodup ∧
    ((runLog [Request.add dueTask "", Request.add waitingTask "", Request.tick, Request.tick,
        Request.tick, Request.tick, Request.tick]
        { smallWheel with isRun := false }).map (fun t => t.id)).Nodup :=
  ⟨by decide, by decide,
    (C19_each_task_is_dispatched_at_most_once maxSlots64 Second 2
      { smallWheel with isRun := false }
      [Request.add dueTask "", Request.add waitingTask "", Request.tick, Request.tick,
        Request.tick, Request.tick, Request.tick] (by decide) (by decide)).1⟩

/-! ## The heap property under `down` and `heap.Pop` -/

theorem Swap_getElem?_left (h : TaskHeap) (i j : Nat) (hi : i < h.length) (hj : j < h.length) :
    (TaskHeap.Swap h i j)[i]? = h[j]? := by
  unfold TaskHeap.Swap
  rw [List.getElem?_eq_getElem hi, List.getElem?_eq_getElem hj]
  simp only [List.getElem?_set]
  by_cases e : j = i
  · subst e
    simp [hi]
  · rw [if_neg e]
    simp [hi]

theorem circleAt_Swap (h : TaskHeap) (i j k : Nat) (hi : i < h.length) (hj : j < h.length) :
    circleAt (TaskHeap.Swap h i j) k =
      if k = j then circleAt h i else if k = i then circleAt h j else circleAt h k := by
  unfold circleAt
  by_cases e1 : k = j
  · subst e1
    rw [if_pos rfl, Swap_getElem?_right h i k hi hj]
  · rw [if_neg e1]
    by_cases e2 : k = i
    · subst e2
      rw [if_pos rfl, Swap_getElem?_left h k j hi hj]
    · rw [if_neg e2, Swap_getElem?_ne h i j k e2 e1]

theorem Less_eq (h : TaskHeap) (i j : Nat) (hi : i < h.length) (hj : j < h.length) :
    TaskHeap.Less h i j = decide (circleAt h j < circleAt h i) := by
  unfold TaskHeap.Less circleAt
  rw [List.getElem?_eq_getElem hi, List.getElem?_eq_getElem hj]

theorem Less_false (h : TaskHeap) (i j : Nat) (hi : i < h.length) (hj : j < h.length)
    (hl : TaskHeap.Less h i j = false) : circleAt h i ≤ circleAt h j := by
  rw [Less_eq h i j hi hj] at hl
  simpa using hl

theorem Less_true (h : TaskHeap) (i j : Nat) (hi : i < h.length) (hj : j < h.length)
    (hl : ¬ TaskHeap.Less h i j = false) : circleAt h j < circleAt h i := by
  rw [Less_eq h i j hi hj] at hl
  simpa using hl

/-- The child `down` picks is a child of `i` and has the largest `circle` of
the children. -/
theorem heap.child_max (h : TaskHeap) (i n : Nat) (hn : n ≤ h.length) :
    (heap.child h i n = 2 * i + 1 ∨ heap.child h i n = 2 * i + 2) ∧
      circleAt h (2 * i + 1) ≤ circleAt h (heap.child h i n) ∧
      (2 * i + 2 < n → circleAt h (2 * i + 2) ≤ circleAt h (heap.child h i n)) := by
  unfold heap.child
  by_cases hc : 2 * i + 1 + 1 < n ∧ TaskHeap.Less h (2 * i + 1 + 1) (2 * i + 1) = true
  · rw [if_pos hc]
    have hlt := Less_true h (2 * i + 1 + 1) (2 * i + 1) (by omega) (by omega) (by simp [hc.2])
    exact ⟨Or.inr rfl, le_of_lt hlt, fun _ => le_refl _⟩
  · rw [if_neg hc]
    refine ⟨Or.inl rfl, le_refl _, ?_⟩
    intro h2
    have hf : TaskHeap.Less h (2 * i + 1 + 1) (2 * i + 1) = false := by
      cases hb : TaskHeap.Less h (2 * i + 1 + 1) (2 * i + 1) with
      | false => rfl
      | true => exact absurd ⟨h2, hb⟩ hc
    exact Less_false h (2 * i + 1 + 1) (2 * i + 1) (by omega) (by omega) hf

/-- The loop of `down` started at `i` makes the first `n` elements a heap when
they are one except below `i`, and the parent of `i` is not smaller than the
children of `i`. -/
theorem heap.downLoop_heap : ∀ (fuel : Nat) (h : TaskHeap) (i n : Nat),
    n ≤ h.length → n - i ≤ fuel →
    (∀ j, j < n → 0 < j → (j - 1) / 2 ≠ i → circleAt h j ≤ circleAt h ((j - 1) / 2)) →
    (∀ j, j < n → 0 < j → (j - 1) / 2 = i → 0 < i → circleAt h j ≤ circleAt h ((i - 1) / 2)) →
    IsHeapUpTo (heap.downLoop fuel h i n).1 n
  | 0, h, i, n, _, hf, hyp1, _ => by
    intro j hj hj0
    exact hyp1 j hj hj0 (by omega)
  | fuel + 1, h, i, n, hn, hf, hyp1, hyp2 => by
    rw [heap.downLoop_succ]
    by_cases h1 : n ≤ 2 * i + 1
    · rw [if_pos h1]
      intro j hj hj0
      exact hyp1 j hj hj0 (by omega)
    · rw [if_neg h1]
      obtain ⟨hc, hm1, hm2⟩ := heap.child_max h i n hn
      have hcn := heap.child_lt h i n h1
      generalize heap.child h i n = c at hc hm1 hm2 hcn
      by_cases h2 : TaskHeap.Less h c i = false
      · rw [if_pos h2]
        have hci := Less_false h c i (by omega) (by omega) h2
        intro j hj hj0
        by_cases hp : (j - 1) / 2 = i
        · rw [hp]
          have hj2 : j = 2 * i + 1 ∨ j = 2 * i + 2 := by omega
          rcases hj2 with rfl | rfl
          · exact le_trans hm1 hci
          · exact le_trans (hm2 hj) hci
        · exact hyp1 j hj hj0 hp
      · rw [if_neg h2]
        have hci := Less_true h c i (by omega) (by omega) h2
        have hi : i < h.length := by omega
        have hcl : c < h.length := by omega
        apply heap.downLoop_heap fuel _ c n (by rw [Swap_length]; exact hn) (by omega)
        · intro j hj hj0 hp
          rw [circleAt_Swap h i c j hi hcl, circleAt_Swap h i c ((j - 1) / 2) hi hcl]
          rw [if_neg hp]
          by_cases e1 : j = c
          · rw [if_pos e1, if_pos (by omega)]
            exact le_of_lt hci
          · rw [if_neg e1]
            by_cases e2 : j = i
            · rw [if_pos e2, if_neg (by omega)]
              have h3 := hyp2 c hcn (by omega) (by omega) (by omega)
              rw [e2]
              exact h3
            · rw [if_neg e2]
              by_cases e3 : (j - 1) / 2 = i
              · rw [if_pos e3]
                have hj2 : j = 2 * i + 1 ∨ j = 2 * i + 2 := by omega
                rcases hj2 with rfl | rfl
                · exact hm1
                · exact hm2 hj
              · rw [if_neg e3]
                exact hyp1 j hj hj0 e3
        · intro j hj hj0 hp hc0
          rw [circleAt_Swap h i c j hi hcl, circleAt_Swap h i c ((c - 1) / 2) hi hcl]
          rw [if_neg (by omega), if_neg (by omega), if_neg (by omega), if_pos (by omega)]
          have h3 := hyp1 j hj hj0 (by omega)
          rw [hp] at h3
          exact h3

theorem IsHeap_root_max (h : TaskHeap) (hh : IsHeap h) :
    ∀ k, k < h.length → circleAt h k ≤ circleAt h 0 := by
  intro k
  induction k using Nat.strong_induction_on with
  | _ k ih =>
    intro hk
    by_cases h0 : k = 0
    · rw [h0]
    · exact le_trans (hh k hk (by omega)) (ih ((k - 1) / 2) (by omega) (by omega))

theorem circleAt_append_left (l : TaskHeap) (x : Task) (k : Nat) (hk : k < l.length) :
    circleAt (l ++ [x]) k = circleAt l k := by
  unfold circleAt
  rw [List.getElem?_append_left hk]

theorem circleAt_of_getElem? {h : TaskHeap} {k : Nat} {t : Task} (e : h[k]? = some t) :
    circleAt h k = t.circle := by
  unfold circleAt
  rw [e]

/-- A `heap.Pop` on a heap returns the root and leaves a heap. -/
theorem heap.Pop_heap {h h1 : TaskHeap} {x : Task} (hh : IsHeap h)
    (e : heap.Pop h = some (x, h1)) : h[0]? = some x ∧ IsHeap h1 := by
  unfold heap.Pop at e
  split at e
  · cases e
  · rename_i hl
    have hpos : 0 < h.length := by omega
    have hlen0 : (TaskHeap.Swap h 0 (h.length - 1)).length = h.length := Swap_length _ _ _
    have hg := TaskHeap.Pop_eq_some e
    have hgl : (heap.down (TaskHeap.Swap h 0 (h.length - 1)) 0 (h.length - 1)).1.length =
        h.length := ((heap.down_perm _ _ _).trans (Swap_perm _ _ _)).length_eq
    have hheap : IsHeapUpTo (heap.down (TaskHeap.Swap h 0 (h.length - 1)) 0 (h.length - 1)).1
        (h.length - 1) := by
      apply heap.downLoop_heap (h.length - 1) _ 0 (h.length - 1) (by omega) (by omega)
      · intro j hj hj0 hp
        rw [circleAt_Swap h 0 (h.length - 1) j hpos (by omega),
          circleAt_Swap h 0 (h.length - 1) ((j - 1) / 2) hpos (by omega)]
        rw [if_neg (by omega), if_neg (by omega), if_neg (by omega), if_neg (by omega)]
        exact hh j (by omega) hj0
      · intro j _ _ _ h0
        exact absurd h0 (lt_irrefl 0)
    have hlast : (heap.down (TaskHeap.Swap h 0 (h.length - 1)) 0 (h.length - 1)).1[h.length - 1]? =
        h[0]? := by
      rw [heap.down_getElem?_ge _ _ _ _ (le_refl _)]
      exact Swap_getElem?_right h 0 (h.length - 1) hpos (by omega)
    rw [hg] at hgl hheap hlast
    have hl1 : h1.length = h.length - 1 := by
      simp only [List.length_append, List.length_singleton] at hgl
      omega
    constructor
    · rw [← hlast, ← hl1]
      simp
    · intro j hj hj0
      have := hheap j (by omega) hj0
      rw [circleAt_append_left h1 x j hj, circleAt_append_left h1 x _ (by omega)] at this
      exact this

/-- C18: on a non-empty slot that is a heap under `TaskHeap.Less`, `heap.Pop`
returns a task of the slot whose `circle` is the largest in the slot; the tasks
left are the slot without that task, and they are a heap again. -/
theorem C18_Pop_returns_max_circle_and_keeps_heap (h : TaskHeap) (hne : h ≠ [])
    (hh : IsHeap h) :
    ∃ x h1, heap.Pop h = some (x, h1) ∧ x ∈ h ∧ (∀ t ∈ h, t.circle ≤ x.circle) ∧
      (x :: h1).Perm h ∧ IsHeap h1 := by
  obtain ⟨r, hr⟩ := heap.Pop_isSome h hne
  obtain ⟨x, h1⟩ := r
  obtain ⟨hx, hh1⟩ := heap.Pop_heap hh hr
  have hp := heap.Pop_perm hr
  refine ⟨x, h1, hr, hp.subset (List.mem_cons_self _ _), ?_, hp, hh1⟩
  intro t ht
  obtain ⟨k, hk⟩ := List.mem_iff_getElem?.mp ht
  have hkl : k < h.length := (List.getElem?_eq_some_iff.mp hk).1
  have := IsHeap_root_max h hh k hkl
  rw [circleAt_of_getElem? hk, circleAt_of_getElem? hx] at this
  exact this

theorem C18_Pop_returns_max_circle_and_keeps_heap_witness :
    [waitingTask, dueTask] ≠ [] ∧ IsHeap [waitingTask, dueTask] ∧
    ∃ x h1, heap.Pop [waitingTask, dueTask] = some (x, h1) ∧
      (∀ t ∈ [waitingTask, dueTask], t.circle ≤ x.circle) ∧ IsHeap h1 :=
  ⟨by decide, by decide,
    (C18_Pop_returns_max_circle_and_keeps_heap [waitingTask, dueTask] (by decide)
      (by decide)).imp
      (fun _ hx => hx.imp (fun _ hy => ⟨hy.1, hy.2.2.1, hy.2.2.2.2⟩))⟩

/-! ## The heap property under `up`, `heap.Push` and `heap.Remove` -/

theorem circleAt_Swap_right (h : TaskHeap) (i j : Nat) (hi : i < h.length)
    (hj : j < h.length) : circleAt (TaskHeap.Swap h i j) j = circleAt h i := by
  unfold circleAt
  rw [Swap_getElem?_right h i j hi hj]

theorem circleAt_Swap_left (h : TaskHeap) (i j : Nat) (hi : i < h.length)
    (hj : j < h.length) : circleAt (TaskHeap.Swap h i j) i = circleAt h j := by
  unfold circleAt
  rw [Swap_getElem?_left h i j hi hj]

theorem circleAt_Swap_ne (h : TaskHeap) (i j k : Nat) (hki : k ≠ i) (hkj : k ≠ j) :
    circleAt (TaskHeap.Swap h i j) k = circleAt h k := by
  unfold circleAt
  rw [Swap_getElem?_ne h i j k hki hkj]

/-- The loop of `up` started at `j` makes the first `n` elements a heap when
they are one except between `j` and its parent, and the parent of `j` is not
smaller than the children of `j`. -/
theorem heap.up_heap : ∀ (fuel : Nat) (h : TaskHeap) (j n : Nat),
    j < fuel → j < n → n ≤ h.length →
    (∀ k, k < n → 0 < k → k ≠ j → circleAt h k ≤ circleAt h ((k - 1) / 2)) →
    (∀ k, k < n → 0 < k → (k - 1) / 2 = j → 0 < j → circleAt h k ≤ circleAt h ((j - 1) / 2)) →
    IsHeapUpTo (heap.up fuel h j) n
  | 0, _, _, _, hf, _, _, _, _ => by omega
  | fuel + 1, h, j, n, hf, hj, hn, hyp1, hyp2 => by
    unfold heap.up
    simp only
    by_cases hb : (j - 1) / 2 = j ∨ TaskHeap.Less h j ((j - 1) / 2) = false
    · rw [if_pos hb]
      intro k hk hk0
      by_cases e : k = j
      · rcases hb with hb | hb
        · omega
        · rw [e]
          exact Less_false h j ((j - 1) / 2) (by omega) (by omega) hb
      · exact hyp1 k hk hk0 e
    · rw [if_neg hb]
      have hne : (j - 1) / 2 ≠ j := fun e => hb (Or.inl e)
      have hlt := Less_true h j ((j - 1) / 2) (by omega) (by omega) (fun e => hb (Or.inr e))
      have hi : (j - 1) / 2 < h.length := by omega
      have hjl : j < h.length := by omega
      have hR : circleAt (TaskHeap.Swap h ((j - 1) / 2) j) j = circleAt h ((j - 1) / 2) :=
        circleAt_Swap_right h _ _ hi hjl
      have hL : circleAt (TaskHeap.Swap h ((j - 1) / 2) j) ((j - 1) / 2) = circleAt h j :=
        circleAt_Swap_left h _ _ hi hjl
      have hN : ∀ k, k ≠ (j - 1) / 2 → k ≠ j →
          circleAt (TaskHeap.Swap h ((j - 1) / 2) j) k = circleAt h k :=
        fun k h1 h2 => circleAt_Swap_ne h _ _ k h1 h2
      apply heap.up_heap fuel _ ((j - 1) / 2) n (by omega) (by omega)
        (by rw [Swap_length]; exact hn)
      · intro k hk hk0 hki
        by_cases e1 : k = j
        · rw [e1, hR, hL]
          exact le_of_lt hlt
        · rw [hN k hki e1]
          by_cases e2 : (k - 1) / 2 = j
          · rw [e2, hR]
            exact hyp2 k hk hk0 e2 (by omega)
          · by_cases e3 : (k - 1) / 2 = (j - 1) / 2
            · rw [e3, hL]
              have h3 := hyp1 k hk hk0 e1
              rw [e3] at h3
              exact le_trans h3 (le_of_lt hlt)
            · rw [hN _ e3 e2]
              exact hyp1 k hk hk0 e1
      · intro k hk hk0 hp hi0
        have hpar := hyp1 ((j - 1) / 2) (by omega) hi0 hne
        rw [hN (((j - 1) / 2 - 1) / 2) (by omega) (by omega)]
        by_cases e1 : k = j
        · rw [e1, hR]
          exact hpar
        · rw [hN k (by omega) e1]
          have h3 := hyp1 k hk hk0 e1
          rw [hp] at h3
          exact le_trans h3 hpar

theorem IsHeapUpTo_mono {h : TaskHeap} {n m : Nat} (hh : IsHeapUpTo h n) (hm : m ≤ n) :
    IsHeapUpTo h m :=
  fun j hj hj0 => hh j (by omega) hj0

theorem circleAt_dropLast (h : TaskHeap) (k : Nat) (hk : k < h.length - 1) :
    circleAt h.dropLast k = circleAt h k := by
  unfold circleAt
  rw [List.getElem?_dropLast, if_pos hk]

theorem IsHeap_dropLast {h : TaskHeap} (hh : IsHeapUpTo h (h.length - 1)) : IsHeap h.dropLast := by
  intro j hj hj0
  rw [List.length_dropLast] at hj
  rw [circleAt_dropLast h j hj, circleAt_dropLast h _ (by omega)]
  exact hh j hj hj0

/-- A `heap.Push` on a heap gives a heap. -/
theorem heap.Push_heap (h : TaskHeap) (x : Task) (hh : IsHeap h) : IsHeap (heap.Push h x) := by
  have hl : (heap.Push h x).length = h.length + 1 := by
    rw [(heap.Push_perm h x).length_eq]
    rfl
  unfold IsHeap
  rw [hl]
  unfold heap.Push TaskHeap.Push
  simp only [List.length_append, List.length_singleton, Nat.add_sub_cancel]
  apply heap.up_heap (h.length + 1) (h ++ [x]) h.length (h.length + 1) (by omega) (by omega)
    (by simp)
  · intro k hk hk0 hkj
    rw [circleAt_append_left h x k (by omega), circleAt_append_left h x _ (by omega)]
    exact hh k (by omega) hk0
  · intro k hk hk0 hp
    omega

theorem heap.downLoop_stay : ∀ (fuel : Nat) (h : TaskHeap) (i n : Nat), n ≤ h.length → i < n →
    (∀ c, c < n → 0 < c → (c - 1) / 2 = i → circleAt h c ≤ circleAt h i) →
    heap.downLoop fuel h i n = (h, i)
  | 0, _, _, _, _, _, _ => rfl
  | fuel + 1, h, i, n, hn, hi, hch => by
    rw [heap.downLoop_succ]
    by_cases h1 : n ≤ 2 * i + 1
    · rw [if_pos h1]
    · rw [if_neg h1]
      have hcn := heap.child_lt h i n h1
      have hc := (heap.child_max h i n hn).1
      have hle := hch (heap.child h i n) hcn (by omega) (by omega)
      have hf : TaskHeap.Less h (heap.child h i n) i = false := by
        rw [Less_eq h _ i (by omega) (by omega)]
        simpa using hle
      rw [if_pos hf]

/-- A `heap.Remove` at any index of a heap leaves a heap. -/
theorem heap.Remove_heap {h h1 : TaskHeap} {i : Nat} {x : Task} (hh : IsHeap h)
    (e : heap.Remove h i = some (x, h1)) : IsHeap h1 := by
  unfold heap.Remove at e
  split at e
  · cases e
  · rename_i hil
    have hi : i < h.length := by omega
    by_cases hn : h.length - 1 ≠ i
    · rw [if_pos hn] at e
      simp only at e
      have hin : i < h.length - 1 := by omega
      have hnl : h.length - 1 < h.length := by omega
      have hsl : (TaskHeap.Swap h i (h.length - 1)).length = h.length := Swap_length _ _ _
      have hsL : circleAt (TaskHeap.Swap h i (h.length - 1)) i = circleAt h (h.length - 1) :=
        circleAt_Swap_left h _ _ hi hnl
      have hsN : ∀ k, k ≠ i → k ≠ h.length - 1 →
          circleAt (TaskHeap.Swap h i (h.length - 1)) k = circleAt h k :=
        fun k h1 h2 => circleAt_Swap_ne h _ _ k h1 h2
      have hchild : ∀ k, k < h.length - 1 → 0 < k → (k - 1) / 2 = i →
          circleAt h k ≤ circleAt h i := by
        intro k hk hk0 hp
        have := hh k (by omega) hk0
        rw [hp] at this
        exact this
      have hfin : IsHeapUpTo
          (if (heap.down (TaskHeap.Swap h i (h.length - 1)) i (h.length - 1)).2 = false
            then heap.up (i + 1) (heap.down (TaskHeap.Swap h i (h.length - 1)) i (h.length - 1)).1 i
            else (heap.down (TaskHeap.Swap h i (h.length - 1)) i (h.length - 1)).1)
          (h.length - 1) := by
        by_cases hcase : i = 0 ∨ circleAt h (h.length - 1) ≤ circleAt h ((i - 1) / 2)
        · have hdown : IsHeapUpTo
              (heap.down (TaskHeap.Swap h i (h.length - 1)) i (h.length - 1)).1
              (h.length - 1) := by
            apply heap.downLoop_heap (h.length - 1) _ i (h.length - 1) (by omega) (by omega)
            · intro j hj hj0 hp
              by_cases e1 : j = i
              · rw [e1, hsL, hsN ((i - 1) / 2) (by omega) (by omega)]
                rcases hcase with h0 | hle
                · omega
                · exact hle
              · rw [hsN j e1 (by omega), hsN ((j - 1) / 2) hp (by omega)]
                exact hh j (by omega) hj0
            · intro j hj hj0 hp hi0
              rw [hsN j (by omega) (by omega), hsN ((i - 1) / 2) (by omega) (by omega)]
              exact le_trans (hchild j hj hj0 hp) (hh i hi hi0)
          split
          · have hdl : (heap.down (TaskHeap.Swap h i (h.length - 1)) i (h.length - 1)).1.length =
                h.length := ((heap.down_perm _ _ _).trans (Swap_perm _ _ _)).length_eq
            apply heap.up_heap (i + 1) _ i (h.length - 1) (by omega) hin (by omega)
            · intro k hk hk0 _
              exact hdown k hk hk0
            · intro k hk hk0 hp hi0
              have h3 := hdown k hk hk0
              rw [hp] at h3
              exact le_trans h3 (hdown i hin hi0)
          · exact hdown
        · have hi0 : 0 < i := by
            by_contra hc
            exact hcase (Or.inl (by omega))
          have hgt : circleAt h ((i - 1) / 2) < circleAt h (h.length - 1) := by
            by_contra hc
            exact hcase (Or.inr (not_lt.mp hc))
          have hpi := hh i hi hi0
          have hstay : heap.downLoop (h.length - 1) (TaskHeap.Swap h i (h.length - 1)) i
              (h.length - 1) = (TaskHeap.Swap h i (h.length - 1), i) := by
            apply heap.downLoop_stay _ _ _ _ (by omega) hin
            intro c hc hc0 hp
            rw [hsN c (by omega) (by omega), hsL]
            exact le_trans (hchild c hc hc0 hp) (le_trans hpi (le_of_lt hgt))
          have hd1 : heap.down (TaskHeap.Swap h i (h.length - 1)) i (h.length - 1) =
              (TaskHeap.Swap h i (h.length - 1), false) := by
            unfold heap.down
            rw [hstay]
            simp
          rw [hd1]
          simp only [if_true]
          apply heap.up_heap (i + 1) _ i (h.length - 1) (by omega) hin (by omega)
          · intro k hk hk0 hki
            rw [hsN k hki (by omega)]
            by_cases e1 : (k - 1) / 2 = i
            · rw [e1, hsL]
              exact le_trans (hchild k hk hk0 e1) (le_trans hpi (le_of_lt hgt))
            · rw [hsN ((k - 1) / 2) e1 (by omega)]
              exact hh k (by omega) hk0
          · intro k hk hk0 hp _
            rw [hsN k (by omega) (by omega), hsN ((i - 1) / 2) (by omega) (by omega)]
            exact le_trans (hchild k hk hk0 hp) hpi
      generalize hh2 : (if (heap.down (TaskHeap.Swap h i (h.length - 1)) i (h.length - 1)).2 = false
        then heap.up (i + 1) (heap.down (TaskHeap.Swap h i (h.length - 1)) i (h.length - 1)).1 i
        else (heap.down (TaskHeap.Swap h i (h.length - 1)) i (h.length - 1)).1) = h2 at e hfin
      have hperm : h2.Perm h := by
        rw [← hh2]
        split
        · exact ((heap.up_perm _ _ _).trans (heap.down_perm _ _ _)).trans (Swap_perm h _ _)
        · exact (heap.down_perm _ _ _).trans (Swap_perm h _ _)
      have hl2 : h2.length = h.length := hperm.length_eq
      have hg := TaskHeap.Pop_eq_some e
      have hd : h1 = h2.dropLast := by
        rw [hg]
        simp
      rw [hd]
      exact IsHeap_dropLast (by rw [hl2]; exact hfin)
    · rw [if_neg hn] at e
      have hg := TaskHeap.Pop_eq_some e
      have hd : h1 = h.dropLast := by
        rw [hg]
        simp
      rw [hd]
      exact IsHeap_dropLast (IsHeapUpTo_mono hh (by omega))

theorem popLoop_heap : ∀ (fuel : Nat) (h : TaskHeap) (fired : List Task), IsHeap h →
    IsHeap (popLoop fuel h fired).1
  | 0, _, _, hh => hh
  | fuel + 1, h, fired, hh => by
    unfold popLoop
    cases hp : heap.Pop h with
    | none => exact hh
    | some r =>
      obtain ⟨task, h1⟩ := r
      have h1h := (heap.Pop_heap hh hp).2
      simp only
      split
      · exact popLoop_heap fuel h1 _ h1h
      · exact heap.Push_heap h1 task h1h

theorem circleAt_map_decCircle (l : TaskHeap) (k : Nat) (hk : k < l.length) :
    circleAt (l.map decCircle) k = circleAt l k - 1 := by
  unfold circleAt
  rw [List.getElem?_map, List.getElem?_eq_getElem hk]
  rfl

/-- Decrementing every `circle` of a heap gives a heap. -/
theorem IsHeap_map_decCircle (l : TaskHeap) (hh : IsHeap l) : IsHeap (l.map decCircle) := by
  intro j hj hj0
  rw [List.length_map] at hj
  rw [circleAt_map_decCircle l j hj, circleAt_map_decCircle l _ (by omega)]
  have := hh j hj hj0
  omega

theorem handleTasks_heap (h : TaskHeap) (hh : IsHeap h) : IsHeap (handleTasks h).1 := by
  unfold handleTasks
  split
  · exact hh
  · exact IsHeap_map_decCircle _ (popLoop_heap _ _ _ hh)

theorem allHeaps_setSlot (tw : TimeWheel) (p c : Int) (g : TaskHeap) (m : List (String × Int))
    (ha : AllHeaps tw) (hg : IsHeap g) :
    AllHeaps { tw with slots := setSlot tw.slots p g, taskMap := m, curPos := c } := by
  intro h hh
  rcases mem_setSlot hh with h1 | h1
  · exact ha h h1
  · rw [h1]
    exact hg

/-- One request served by the loop keeps every slot a heap. -/
theorem step_heaps (tw tw1 : TimeWheel) (r : Request) (fired : List Task) (ha : AllHeaps tw)
    (hs : step tw r = some (tw1, fired)) : AllHeaps tw1 := by
  cases r with
  | tick =>
    simp only [step] at hs
    rw [tickHandle_eq] at hs
    cases hsl : slotAt tw.slots (nextPos tw) with
    | none => simp [hsl] at hs
    | some h =>
      simp only [hsl, Option.some.injEq, Prod.mk.injEq] at hs
      obtain ⟨rfl, rfl⟩ := hs
      exact allHeaps_setSlot tw _ _ _ tw.taskMap ha (handleTasks_heap h (ha h (slotAt_mem hsl)))
  | add task uuid =>
    simp only [step, addTask] at hs
    split at hs
    · simp only [Option.map_some', Option.some.injEq, Prod.mk.injEq] at hs
      obtain ⟨rfl, rfl⟩ := hs
      exact ha
    · cases hg : getTaskPos tw task with
      | none => simp [hg] at hs
      | some cp =>
        obtain ⟨circ, pos⟩ := cp
        simp only [hg] at hs
        cases hsl : slotAt tw.slots pos with
        | none => simp [hsl] at hs
        | some h =>
          simp only [hsl, Option.map_some', Option.some.injEq, Prod.mk.injEq] at hs
          obtain ⟨rfl, rfl⟩ := hs
          exact allHeaps_setSlot tw pos tw.curPos _ _ ha
            (heap.Push_heap h _ (ha h (slotAt_mem hsl)))
  | del delId =>
    simp only [step] at hs
    cases hdl : delTask tw delId with
    | none => simp [hdl] at hs
    | some w =>
      simp only [hdl, Option.map_some', Option.some.injEq, Prod.mk.injEq] at hs
      obtain ⟨rfl, rfl⟩ := hs
      unfold delTask at hdl
      cases hm : mapGet tw.taskMap delId with
      | none =>
        simp only [hm, Option.some.injEq] at hdl
        subst hdl
        exact ha
      | some pos =>
        simp only [hm] at hdl
        cases hsl : slotAt tw.slots pos with
        | none => simp [hsl] at hdl
        | some h =>
          simp only [hsl] at hdl
          by_cases hlen : h.length ≤ 0
          · rw [if_pos hlen] at hdl
            cases hdl
            exact ha
          · rw [if_neg hlen] at hdl
            cases hf : findTask h delId with
            | none =>
              simp only [hf, Option.some.injEq] at hdl
              subst hdl
              exact ha
            | some idx =>
              simp only [hf] at hdl
              cases hrem : heap.Remove h idx with
              | none => simp [hrem] at hdl
              | some rr =>
                simp only [hrem, Option.some.injEq] at hdl
                subst hdl
                exact allHeaps_setSlot tw pos tw.curPos _ _ ha
                  (heap.Remove_heap (ha h (slotAt_mem hsl))
                    (show heap.Remove _ _ = some (rr.1, rr.2) from hrem))

theorem runState_heaps : ∀ (reqs : List Request) (tw tw1 : TimeWheel), AllHeaps tw →
    runState reqs tw = some tw1 → AllHeaps tw1
  | [], tw, tw1, ha, hs => by
    simp only [runState, Option.some.injEq] at hs
    subst hs
    exact ha
  | r :: rest, tw, tw1, ha, hs => by
    unfold runState at hs
    cases hst : step tw r with
    | none => simp [hst] at hs
    | some x =>
      simp only [hst] at hs
      exact runState_heaps rest x.1 tw1 (step_heaps tw x.1 r x.2 ha hst) hs

/-- C20: every wheel reached from `NewTimeWheel` by add, delete and tick
requests has only slots with the max-heap property on `circle`; the property
is kept by `heap.Push`, by `heap.Remove` at any index, by the pop and push-back
loop of `handleTasks`, and by decrementing every `circle` in place. -/
theorem C20_every_slot_stays_a_heap (maxLen : Int) (interval : Duration) (slotNum : Int)
    (tw0 tw : TimeWheel) (reqs : List Request)
    (hn : NewTimeWheel maxLen interval slotNum = some tw0)
    (hs : runState reqs tw0 = some tw) :
    AllHeaps tw ∧
    (∀ (h : TaskHeap) (x : Task), IsHeap h → IsHeap (heap.Push h x)) ∧
    (∀ (h h1 : TaskHeap) (i : Nat) (x : Task), IsHeap h → heap.Remove h i = some (x, h1) →
      IsHeap h1) ∧
    (∀ (fuel : Nat) (h : TaskHeap) (fired : List Task), IsHeap h →
      IsHeap (popLoop fuel h fired).1) ∧
    (∀ h : TaskHeap, IsHeap h → IsHeap (h.map decCircle)) ∧
    (∀ h : TaskHeap, IsHeap h → IsHeap (handleTasks h).1) := by
  refine ⟨?_, heap.Push_heap, fun h h1 i x hh e => heap.Remove_heap hh e, popLoop_heap,
    IsHeap_map_decCircle, handleTasks_heap⟩
  apply runState_heaps reqs tw0 tw _ hs
  unfold NewTimeWheel at hn
  split at hn
  · cases hn
  · simp only [Option.some.injEq] at hn
    subst hn
    intro h hh
    simp only [initSlots] at hh
    rw [List.eq_of_mem_replicate hh, heap.Init_nil]
    intro j hj
    simp at hj

theorem C20_every_slot_stays_a_heap_witness :
    NewTimeWheel maxSlots64 Second 2 = some { smallWheel with isRun := false } ∧
    runState [Request.add dueTask "", Request.add waitingTask "", Request.tick]
        { smallWheel with isRun := false } =
      some { smallWheel with
               isRun := false, curPos := 1,
               slots := [[], [{ waitingTask with circle := 0 }, { dueTask with circle := -1 }]],
               taskMap := [("waiting", 1), ("due", 1)] } ∧
    AllHeaps { smallWheel with
                 isRun := false, curPos := 1,
                 slots := [[], [{ waitingTask with circle := 0 }, { dueTask with circle := -1 }]],
                 taskMap := [("waiting", 1), ("due", 1)] } :=
  ⟨by decide, by decide,
    (C20_every_slot_stays_a_heap maxSlots64 Second 2 { smallWheel with isRun := false } _
      [Request.add dueTask "", Request.add waitingTask "", Request.tick] (by decide)
      (by decide)).1⟩

end Timewheel
